import Mathlib

/-!
A shallow embedding of the limit order book implemented in
src/orderbook/orderbook.cpp, together with proofs of the specified
properties of its operations.

Modelling choices:
* C++ `double` prices are embedded as rationals; the epsilon used by
  `amend_order` is 10^-9 and the empty-ask sentinel is the largest finite
  double, (2^53 - 1) * 2^971, both exactly representable as rationals.
* `uint64_t` quantities, ids and counters are embedded as `Nat`
  (no operation in scope needs wrap-around behaviour).
* `std::map<double, Level*>` is embedded as a list of `Level` values kept
  sorted by price (descending for bids, ascending for asks); map lookup is
  a first-match scan, insertion preserves the sort order.
* Heap identity of pool-allocated `OrderNode` objects is modelled by a
  `serial` number drawn from a monotone counter `next_serial`; the
  `std::list` iterator stored on each node is replaced by locating the
  node through its serial, and the aliasing between the Index entry and
  the FIFO entry is modelled by updating both copies in lock step.
* `std::unordered_map<uint64_t, OrderNode*> order_lookup` is embedded as
  an association list with `emplace` (insert only if the key is absent),
  first-match `find` and `erase` semantics.
-/

namespace LOB

/-- Caller-supplied order record (`struct Order`). -/
structure Order where
  order_id : Nat
  is_buy : Bool
  price : ℚ
  quantity : Nat
  timestamp_ns : Nat
deriving DecidableEq, Repr

/-- Aggregated per-level snapshot entry (`struct PriceLevel`). -/
structure PriceLevel where
  price : ℚ
  total_quantity : Nat
deriving DecidableEq, Repr

/-- Internal order node (`struct OrderNode`); `serial` models the identity
of the pool-allocated object (the C++ pointer). -/
structure OrderNode where
  order : Order
  serial : Nat
deriving DecidableEq, Repr

/-- Price level with FIFO order queue (`struct Level`).  The FIFO list is
kept front-first: `orders.head` is the oldest resting order. -/
structure Level where
  price : ℚ
  total_quantity : Nat
  orders : List OrderNode
  order_count : Nat
deriving DecidableEq, Repr

/-- The `Level(double p)` constructor. -/
def Level.init (p : ℚ) : Level :=
  { price := p, total_quantity := 0, orders := [], order_count := 0 }

/-- Embeds `Level::add_order`: append at the FIFO tail and bump the aggregates. -/
def Level.add_order (l : Level) (n : OrderNode) : Level :=
  { l with
    orders := l.orders ++ [n]
    total_quantity := l.total_quantity + n.order.quantity
    order_count := l.order_count + 1 }

/-- Embeds `Level::remove_order`: erase the node (located through its serial, the
embedding of the stored list iterator) and adjust the aggregates. -/
def Level.remove_order (l : Level) (n : OrderNode) : Level :=
  { l with
    orders := l.orders.eraseP (fun m => decide (m.serial = n.serial))
    total_quantity := l.total_quantity - n.order.quantity
    order_count := l.order_count - 1 }

/-- The in-place mutation `node->order.quantity = new_quantity`, as seen
through any alias of the node object (identified by its serial). -/
def setQty (s : Nat) (new_quantity : Nat) (m : OrderNode) : OrderNode :=
  if m.serial = s then { m with order := { m.order with quantity := new_quantity } } else m

/-- Embeds `Level::update_quantity`: replace the node's quantity in place (the
FIFO entry aliases the node object) and adjust `total_quantity` by the
signed delta. -/
def Level.update_quantity (l : Level) (n : OrderNode) (new_quantity : Nat) : Level :=
  { l with
    total_quantity := l.total_quantity - n.order.quantity + new_quantity
    orders := l.orders.map (setQty n.serial new_quantity) }

/-- Embeds `Level::is_empty`. -/
def Level.is_empty (l : Level) : Bool := l.orders.isEmpty

/-- Epsilon used by `amend_order` for floating-point price comparison. -/
def eps : ℚ := 1 / 1000000000

/-- Embeds `std::abs` on the rational embedding of the price type. -/
def ratAbs (x : ℚ) : ℚ := if x < 0 then -x else x

theorem ratAbs_eq_abs (x : ℚ) : ratAbs x = |x| := by
  unfold ratAbs
  by_cases h : x < 0
  · rw [if_pos h]
    exact (abs_of_neg h).symm
  · rw [if_neg h]
    exact (abs_of_nonneg (not_lt.mp h)).symm

/-- Embeds `std::numeric_limits<double>::max()`, exactly: (2^53 - 1) * 2^971. -/
def dblMax : ℚ := (2 ^ 53 - 1) * 2 ^ 971

/-- Embeds `map::find` on a ladder side: first level whose key equals `p`. -/
def findLevel (p : ℚ) (side : List Level) : Option Level :=
  side.find? (fun l => decide (l.price = p))

/-- Replace the (unique) level keyed `p` by `f` applied to it; identity
when no level has key `p`.  Models mutation through a `map` iterator. -/
def updateLevelAt (p : ℚ) (f : Level → Level) : List Level → List Level
  | [] => []
  | l :: ls => if l.price = p then f l :: ls else l :: updateLevelAt p f ls

/-- Embeds `map::emplace` of a fresh level: insert keyed by the comparator `c`
(std::greater for bids, std::less for asks), keeping the list sorted. -/
def insertSorted (c : ℚ → ℚ → Bool) (l : Level) : List Level → List Level
  | [] => [l]
  | x :: xs => if c l.price x.price then l :: x :: xs else x :: insertSorted c l xs

/-- Embeds `OrderBook::add_to_side`: find or create the level at the node's
price, then `Level::add_order` the node into it. -/
def add_to_side (c : ℚ → ℚ → Bool) (side : List Level) (n : OrderNode) : List Level :=
  match findLevel n.order.price side with
  | some _ => updateLevelAt n.order.price (fun l => l.add_order n) side
  | none => insertSorted c ((Level.init n.order.price).add_order n) side

/-- Embeds `OrderBook::remove_from_side`: find the level at the node's price,
remove the node from it, and drop the level if its FIFO became empty. -/
def remove_from_side (side : List Level) (n : OrderNode) : List Level :=
  match side with
  | [] => []
  | l :: ls =>
    if l.price = n.order.price then
      let l' := l.remove_order n
      if l'.is_empty then ls else l' :: ls
    else l :: remove_from_side ls n

/-- Embeds `OrderBook::update_quantity_in_place`: find the level at the node's
price and update the node's quantity inside it (no-op when absent). -/
def update_quantity_in_place (side : List Level) (n : OrderNode) (new_quantity : Nat) :
    List Level :=
  updateLevelAt n.order.price (fun l => l.update_quantity n new_quantity) side

/-- Comparator of the bid map (`std::greater<double>`): best bid first. -/
def bidCmp (a b : ℚ) : Bool := decide (b < a)

/-- Comparator of the ask map (`std::less<double>`): best ask first. -/
def askCmp (a b : ℚ) : Bool := decide (a < b)

/-- Embeds `unordered_map::find` on the Index (first entry with the key). -/
def lookupFind (m : List (Nat × OrderNode)) (id : Nat) : Option OrderNode :=
  (m.find? (fun e => decide (e.1 = id))).map Prod.snd

/-- Embeds `unordered_map::emplace`: insert only when the key is absent. -/
def lookupEmplace (m : List (Nat × OrderNode)) (id : Nat) (n : OrderNode) :
    List (Nat × OrderNode) :=
  if (m.find? (fun e => decide (e.1 = id))).isSome then m else m ++ [(id, n)]

/-- Embeds `unordered_map::erase` of the entry found for the key. -/
def lookupErase (m : List (Nat × OrderNode)) (id : Nat) : List (Nat × OrderNode) :=
  m.eraseP (fun e => decide (e.1 = id))

/-- The book state (`class OrderBook`): the two ladder sides, the Index,
the performance counters, the best-price cache, and the allocation
counter that issues fresh node serials. -/
structure OrderBook where
  bid_levels : List Level
  ask_levels : List Level
  order_lookup : List (Nat × OrderNode)
  total_orders : Nat
  total_cancels : Nat
  total_amends : Nat
  total_snapshots : Nat
  cached_best_bid : ℚ
  cached_best_ask : ℚ
  cache_valid : Bool
  next_serial : Nat
deriving DecidableEq, Repr

/-- The freshly constructed book. -/
def emptyBook : OrderBook :=
  { bid_levels := []
    ask_levels := []
    order_lookup := []
    total_orders := 0
    total_cancels := 0
    total_amends := 0
    total_snapshots := 0
    cached_best_bid := 0
    cached_best_ask := 0
    cache_valid := false
    next_serial := 0 }

/-- Embeds `OrderBook::add_order`: allocate a node, emplace it in the Index,
invalidate the cache, add it to the matching side, bump `total_orders`. -/
def OrderBook.add_order (b : OrderBook) (o : Order) : OrderBook :=
  let node : OrderNode := { order := o, serial := b.next_serial }
  { b with
    order_lookup := lookupEmplace b.order_lookup o.order_id node
    cache_valid := false
    bid_levels := if o.is_buy then add_to_side bidCmp b.bid_levels node else b.bid_levels
    ask_levels := if o.is_buy then b.ask_levels else add_to_side askCmp b.ask_levels node
    total_orders := b.total_orders + 1
    next_serial := b.next_serial + 1 }

/-- Embeds `OrderBook::cancel_order`: look the id up; when found, invalidate the
cache, remove the node from its side, erase the Index entry, bump
`total_cancels` and return true; otherwise return false unchanged. -/
def OrderBook.cancel_order (b : OrderBook) (order_id : Nat) : Bool × OrderBook :=
  match lookupFind b.order_lookup order_id with
  | none => (false, b)
  | some node =>
    (true,
      { b with
        cache_valid := false
        bid_levels :=
          if node.order.is_buy then remove_from_side b.bid_levels node else b.bid_levels
        ask_levels :=
          if node.order.is_buy then b.ask_levels else remove_from_side b.ask_levels node
        order_lookup := lookupErase b.order_lookup order_id
        total_cancels := b.total_cancels + 1 })

/-- Embeds `OrderBook::amend_order` (`now` supplies the fresh
`high_resolution_clock` timestamp of the price-change path): unknown ids
return false; a price change beyond epsilon is cancel + re-add with the
new price, quantity and timestamp; otherwise the quantity is updated in
place (the Index entry aliases the mutated node).  Returns true. -/
def OrderBook.amend_order (b : OrderBook) (order_id : Nat) (new_price : ℚ)
    (new_quantity : Nat) (now : Nat) : Bool × OrderBook :=
  match lookupFind b.order_lookup order_id with
  | none => (false, b)
  | some node =>
    let b₁ := { b with cache_valid := false }
    if eps < ratAbs (node.order.price - new_price) then
      let new_order : Order :=
        { node.order with price := new_price, quantity := new_quantity, timestamp_ns := now }
      let b₂ := (b₁.cancel_order order_id).2
      let b₃ := b₂.add_order new_order
      (true, { b₃ with total_amends := b₃.total_amends + 1 })
    else
      let b₂ :=
        if node.order.is_buy then
          match findLevel node.order.price b₁.bid_levels with
          | some _ =>
            { b₁ with
              bid_levels := update_quantity_in_place b₁.bid_levels node new_quantity
              order_lookup :=
                b₁.order_lookup.map (fun (e : Nat × OrderNode) => (e.1, setQty node.serial new_quantity e.2)) }
          | none => b₁
        else
          match findLevel node.order.price b₁.ask_levels with
          | some _ =>
            { b₁ with
              ask_levels := update_quantity_in_place b₁.ask_levels node new_quantity
              order_lookup :=
                b₁.order_lookup.map (fun (e : Nat × OrderNode) => (e.1, setQty node.serial new_quantity e.2)) }
          | none => b₁
      (true, { b₂ with total_amends := b₂.total_amends + 1 })

/-- Embeds `OrderBook::get_snapshot`: the first `depth` levels of each side,
mapped to `PriceLevel` entries; bumps the (mutable) snapshot counter. -/
def OrderBook.get_snapshot (b : OrderBook) (depth : Nat) :
    (List PriceLevel × List PriceLevel) × OrderBook :=
  (((b.bid_levels.take depth).map fun l => ⟨l.price, l.total_quantity⟩,
    (b.ask_levels.take depth).map fun l => ⟨l.price, l.total_quantity⟩),
   { b with total_snapshots := b.total_snapshots + 1 })

/-- Embeds `OrderBook::get_best_prices`: serve from the cache when valid, else
recompute from the ladder fronts (sentinels 0 and `dblMax`) and fill the
cache. -/
def OrderBook.get_best_prices (b : OrderBook) : (ℚ × ℚ) × OrderBook :=
  if b.cache_valid then ((b.cached_best_bid, b.cached_best_ask), b)
  else
    let bb : ℚ := match b.bid_levels with | [] => 0 | l :: _ => l.price
    let ba : ℚ := match b.ask_levels with | [] => dblMax | l :: _ => l.price
    ((bb, ba),
     { b with cached_best_bid := bb, cached_best_ask := ba, cache_valid := true })

/-- One public operation of the book API. -/
inductive Op where
  | add (o : Order)
  | cancel (order_id : Nat)
  | amend (order_id : Nat) (new_price : ℚ) (new_quantity : Nat) (now : Nat)
  | snapshot (depth : Nat)
  | best
deriving DecidableEq, Repr

/-- Apply one public operation to the book (discarding the return value). -/
def step (b : OrderBook) : Op → OrderBook
  | .add o => b.add_order o
  | .cancel order_id => (b.cancel_order order_id).2
  | .amend order_id p q now => (b.amend_order order_id p q now).2
  | .snapshot depth => (b.get_snapshot depth).2
  | .best => (b.get_best_prices).2

/-- Run a sequence of public operations. -/
def run (b : OrderBook) : List Op → OrderBook
  | [] => b
  | op :: ops => run (step b op) ops

/-! ### Observation functions and the well-formedness invariant -/

/-- Sum of the resting quantities of a list of nodes. -/
def qsum (ns : List OrderNode) : Nat := (ns.map (fun n => n.order.quantity)).sum

/-- All nodes resting on one ladder side, in ladder-then-FIFO order. -/
def sideNodes : List Level → List OrderNode
  | [] => []
  | l :: ls => l.orders ++ sideNodes ls

/-- All nodes resting in the book. -/
def bookNodes (b : OrderBook) : List OrderNode :=
  sideNodes b.bid_levels ++ sideNodes b.ask_levels

/-- The serials of all nodes resting in the book. -/
def bookSerials (b : OrderBook) : List Nat := (bookNodes b).map (fun n => n.serial)

/-- The price keys of a ladder side, in ladder order. -/
def sidePrices (side : List Level) : List ℚ := side.map (fun l => l.price)

/-- Internal consistency of one price level: non-empty FIFO, aggregates
matching the FIFO, and every resting node keyed at the level's price. -/
def LevelWF (l : Level) : Prop :=
  l.orders ≠ [] ∧ l.total_quantity = qsum l.orders ∧
  l.order_count = l.orders.length ∧ ∀ n ∈ l.orders, n.order.price = l.price

/-- The best bid the ladder determines: front of the bid side, 0 when empty. -/
def bestBidCalc (b : OrderBook) : ℚ :=
  match b.bid_levels with | [] => 0 | l :: _ => l.price

/-- The best ask the ladder determines: front of the ask side, `dblMax`
when empty. -/
def bestAskCalc (b : OrderBook) : ℚ :=
  match b.ask_levels with | [] => dblMax | l :: _ => l.price

/-- Well-formedness of a book state; established by construction and
preserved by every public operation. -/
structure BookWF (b : OrderBook) : Prop where
  bid_sorted : (sidePrices b.bid_levels).Pairwise (fun a c => c < a)
  ask_sorted : (sidePrices b.ask_levels).Pairwise (fun a c => a < c)
  bid_wf : ∀ l ∈ b.bid_levels, LevelWF l
  ask_wf : ∀ l ∈ b.ask_levels, LevelWF l
  bid_buy : ∀ n ∈ sideNodes b.bid_levels, n.order.is_buy = true
  ask_sell : ∀ n ∈ sideNodes b.ask_levels, n.order.is_buy = false
  serials_nodup : (bookSerials b).Nodup
  serials_lt : ∀ s ∈ bookSerials b, s < b.next_serial
  keys_nodup : (b.order_lookup.map Prod.fst).Nodup
  lookup_id : ∀ e ∈ b.order_lookup, e.2.order.order_id = e.1
  lookup_mem : ∀ e ∈ b.order_lookup, e.2 ∈ bookNodes b
  cache_ok : b.cache_valid = true →
    b.cached_best_bid = bestBidCalc b ∧ b.cached_best_ask = bestAskCalc b

/-- Every resting node is registered in the Index under its id.  This
holds as long as the caller never adds a duplicate id (the source does
not reject duplicate adds, so it is not preserved by arbitrary traces). -/
def noOrphans (b : OrderBook) : Prop :=
  ∀ m ∈ bookNodes b, lookupFind b.order_lookup m.order.order_id = some m

/-- Serial `s` is resting somewhere in the book. -/
def rests (b : OrderBook) (s : Nat) : Prop := ∃ m ∈ bookNodes b, m.serial = s

/-- Serial `s₁` sits strictly earlier than `s₂` in the FIFO of some level
of the book. -/
def precedes (b : OrderBook) (s₁ s₂ : Nat) : Prop :=
  ∃ l ∈ b.bid_levels ++ b.ask_levels, [s₁, s₂].Sublist (l.orders.map (fun n => n.serial))

/-! ### Basic lemmas about the side and Index primitives -/

theorem findLevel_price {p : ℚ} {side : List Level} {l : Level}
    (h : findLevel p side = some l) : l.price = p := by
  have := List.find?_some h
  simpa using this

theorem findLevel_mem {p : ℚ} {side : List Level} {l : Level}
    (h : findLevel p side = some l) : l ∈ side :=
  List.mem_of_find?_eq_some h

theorem findLevel_none {p : ℚ} {side : List Level}
    (h : findLevel p side = none) : ∀ l ∈ side, l.price ≠ p := by
  intro l hl
  have := List.find?_eq_none.mp h l hl
  simpa using this

theorem findLevel_isSome {p : ℚ} {side : List Level} {l : Level}
    (hl : l ∈ side) (hp : l.price = p) : (findLevel p side).isSome := by
  cases h : findLevel p side with
  | some _ => simp
  | none => exact absurd hp (findLevel_none h l hl)

theorem updateLevelAt_split {p : ℚ} {side : List Level} {l : Level}
    (h : findLevel p side = some l) :
    ∃ pre post, side = pre ++ l :: post ∧ (∀ x ∈ pre, x.price ≠ p) ∧
      ∀ f, updateLevelAt p f side = pre ++ f l :: post := by
  induction side with
  | nil => simp [findLevel] at h
  | cons x xs ih =>
    by_cases hx : x.price = p
    · have hxl : x = l := by
        have : findLevel p (x :: xs) = some x := by
          simp [findLevel, List.find?_cons, hx]
        rw [this] at h; exact (Option.some.injEq _ _).mp h
      subst hxl
      refine ⟨[], xs, by simp, by simp, ?_⟩
      intro f
      simp [updateLevelAt, hx]
    · have htail : findLevel p xs = some l := by
        simpa [findLevel, List.find?_cons, hx] using h
      obtain ⟨pre, post, hs, hpre, hupd⟩ := ih htail
      refine ⟨x :: pre, post, by simp [hs], ?_, ?_⟩
      · intro y hy
        rcases List.mem_cons.mp hy with rfl | hy
        · exact hx
        · exact hpre y hy
      · intro f
        simp [updateLevelAt, hx, hupd f]

theorem updateLevelAt_id {p : ℚ} {side : List Level}
    (h : ∀ x ∈ side, x.price ≠ p) (f : Level → Level) :
    updateLevelAt p f side = side := by
  induction side with
  | nil => rfl
  | cons x xs ih =>
    have hx : x.price ≠ p := h x (by simp)
    simp [updateLevelAt, hx, ih (fun y hy => h y (by simp [hy]))]

theorem remove_from_side_split {side : List Level} {n : OrderNode} {l : Level}
    (h : findLevel n.order.price side = some l) :
    ∃ pre post, side = pre ++ l :: post ∧ (∀ x ∈ pre, x.price ≠ n.order.price) ∧
      remove_from_side side n =
        pre ++ (if (l.remove_order n).is_empty then post else l.remove_order n :: post) := by
  induction side with
  | nil => simp [findLevel] at h
  | cons x xs ih =>
    by_cases hx : x.price = n.order.price
    · have hxl : x = l := by
        have : findLevel n.order.price (x :: xs) = some x := by
          simp [findLevel, List.find?_cons, hx]
        rw [this] at h; exact (Option.some.injEq _ _).mp h
      subst hxl
      refine ⟨[], xs, by simp, by simp, ?_⟩
      simp [remove_from_side, hx]
    · have htail : findLevel n.order.price xs = some l := by
        simpa [findLevel, List.find?_cons, hx] using h
      obtain ⟨pre, post, hs, hpre, hrem⟩ := ih htail
      refine ⟨x :: pre, post, by simp [hs], ?_, ?_⟩
      · intro y hy
        rcases List.mem_cons.mp hy with rfl | hy
        · exact hx
        · exact hpre y hy
      · simp [remove_from_side, hx, hrem]

theorem remove_from_side_id {side : List Level} {n : OrderNode}
    (h : ∀ x ∈ side, x.price ≠ n.order.price) :
    remove_from_side side n = side := by
  induction side with
  | nil => rfl
  | cons x xs ih =>
    have hx : x.price ≠ n.order.price := h x (by simp)
    simp [remove_from_side, hx, ih (fun y hy => h y (by simp [hy]))]

theorem insertSorted_perm (c : ℚ → ℚ → Bool) (l : Level) (side : List Level) :
    (insertSorted c l side).Perm (l :: side) := by
  induction side with
  | nil => simp [insertSorted]
  | cons x xs ih =>
    by_cases hc : c l.price x.price
    · simp [insertSorted, hc]
    · simp only [insertSorted, hc, if_false]
      exact (ih.cons x).trans (List.Perm.swap l x xs)

theorem mem_insertSorted {c : ℚ → ℚ → Bool} {l x : Level} {side : List Level} :
    x ∈ insertSorted c l side ↔ x = l ∨ x ∈ side := by
  rw [(insertSorted_perm c l side).mem_iff]
  simp

theorem sideNodes_append (s t : List Level) :
    sideNodes (s ++ t) = sideNodes s ++ sideNodes t := by
  induction s with
  | nil => rfl
  | cons x xs ih => simp [sideNodes, ih]

theorem mem_sideNodes {n : OrderNode} {side : List Level} :
    n ∈ sideNodes side ↔ ∃ l ∈ side, n ∈ l.orders := by
  induction side with
  | nil => simp [sideNodes]
  | cons x xs ih =>
    simp only [sideNodes, List.mem_append, ih, List.mem_cons]
    constructor
    · rintro (h | ⟨l, hl, hn⟩)
      · exact ⟨x, Or.inl rfl, h⟩
      · exact ⟨l, Or.inr hl, hn⟩
    · rintro ⟨l, rfl | hl, hn⟩
      · exact Or.inl hn
      · exact Or.inr ⟨l, hl, hn⟩

theorem sideNodes_perm {s t : List Level} (h : s.Perm t) :
    (sideNodes s).Perm (sideNodes t) := by
  induction h with
  | nil => rfl
  | cons x _ ih => exact ih.append_left x.orders
  | swap x y xs =>
    show (sideNodes (y :: x :: xs)).Perm (sideNodes (x :: y :: xs))
    simp only [sideNodes, ← List.append_assoc]
    exact (List.perm_append_comm.append_right (sideNodes xs))
  | trans _ _ ih₁ ih₂ => exact ih₁.trans ih₂

theorem qsum_append (s t : List OrderNode) : qsum (s ++ t) = qsum s + qsum t := by
  simp [qsum]

theorem sublist_eraseP {α : Type} {p : α → Bool} {ys xs : List α}
    (h : ys.Sublist xs) : (∀ y ∈ ys, p y = false) → ys.Sublist (xs.eraseP p) := by
  induction h with
  | slnil => intro _; simp
  | @cons l₁ l₂ a h ih =>
    intro hy
    by_cases hp : p a
    · simpa [List.eraseP_cons, hp] using h
    · simpa [List.eraseP_cons, hp] using (ih hy).cons a
  | @cons₂ l₁ l₂ a h ih =>
    intro hy
    have hpa : p a = false := hy a (by simp)
    have hsub : l₁.Sublist (l₂.eraseP p) := ih (fun y hy' => hy y (by simp [hy']))
    simpa [List.eraseP_cons, hpa] using hsub.cons₂ a

theorem eraseP_serial_split {ns : List OrderNode} {n : OrderNode}
    (hmem : n ∈ ns) (hnodup : (ns.map (fun m => m.serial)).Nodup) :
    ∃ xs ys, ns = xs ++ n :: ys ∧ (∀ m ∈ xs, m.serial ≠ n.serial) ∧
      (∀ m ∈ ys, m.serial ≠ n.serial) ∧
      ns.eraseP (fun m => decide (m.serial = n.serial)) = xs ++ ys := by
  induction ns with
  | nil => simp at hmem
  | cons a t ih =>
    by_cases hs : a.serial = n.serial
    · have han : a = n := List.inj_on_of_nodup_map hnodup (by simp) hmem hs
      subst han
      have hnot : ∀ m ∈ t, m.serial ≠ a.serial := by
        intro m hm heq
        have : a.serial ∉ t.map (fun m => m.serial) := (List.nodup_cons.mp (by simpa using hnodup)).1
        exact this (List.mem_map.mpr ⟨m, hm, heq⟩)
      exact ⟨[], t, by simp, by simp, by simpa [hs] using hnot, by simp [List.eraseP_cons, hs]⟩
    · have hmem' : n ∈ t := by
        rcases List.mem_cons.mp hmem with rfl | h'
        · exact absurd rfl hs
        · exact h'
      have hnd' : (t.map (fun m => m.serial)).Nodup :=
        (List.nodup_cons.mp (by simpa using hnodup)).2
      obtain ⟨xs, ys, h1, h2, h3, h4⟩ := ih hmem' hnd'
      refine ⟨a :: xs, ys, by simp [h1], ?_, h3, by simp [List.eraseP_cons, hs, h4]⟩
      intro m hm
      rcases List.mem_cons.mp hm with rfl | hm
      · exact hs
      · exact h2 m hm

theorem level_price_unique {P : ℚ → ℚ → Prop} {side : List Level}
    (hirr : ∀ a : ℚ, ¬ P a a) (hpw : (sidePrices side).Pairwise P)
    {l₁ l₂ : Level} (h₁ : l₁ ∈ side) (h₂ : l₂ ∈ side) (hp : l₁.price = l₂.price) :
    l₁ = l₂ := by
  have hnd : (side.map (fun l => l.price)).Nodup := by
    refine List.Pairwise.imp ?_ (by simpa [sidePrices] using hpw)
    intro a b hab heq
    exact hirr b (heq ▸ hab)
  exact List.inj_on_of_nodup_map hnd h₁ h₂ hp

theorem findLevel_contains {P : ℚ → ℚ → Prop} {side : List Level} {n : OrderNode}
    (hirr : ∀ a : ℚ, ¬ P a a) (hpw : (sidePrices side).Pairwise P)
    (hwf : ∀ l ∈ side, LevelWF l) (hn : n ∈ sideNodes side) :
    ∃ l, findLevel n.order.price side = some l ∧ n ∈ l.orders := by
  obtain ⟨l, hl, hnl⟩ := mem_sideNodes.mp hn
  have hp : l.price = n.order.price := ((hwf l hl).2.2.2 n hnl).symm
  cases hfind : findLevel n.order.price side with
  | none => exact absurd hp (findLevel_none hfind l hl)
  | some l₀ =>
    have : l₀ = l :=
      level_price_unique hirr hpw (findLevel_mem hfind) hl
        (by rw [findLevel_price hfind, hp])
    exact ⟨l₀, rfl, this ▸ hnl⟩

theorem insertSorted_pairwise {P : ℚ → ℚ → Prop} {c : ℚ → ℚ → Bool}
    (hc : ∀ a b : ℚ, c a b = true ↔ P a b)
    (htrans : ∀ {a b d : ℚ}, P a b → P b d → P a d)
    (htot : ∀ a b : ℚ, a ≠ b → P a b ∨ P b a)
    {l : Level} {side : List Level}
    (hne : ∀ x ∈ side, x.price ≠ l.price)
    (hpw : (sidePrices side).Pairwise P) :
    (sidePrices (insertSorted c l side)).Pairwise P := by
  induction side with
  | nil => simp [insertSorted, sidePrices]
  | cons x xs ih =>
    simp only [sidePrices, List.map_cons, List.pairwise_cons] at hpw
    obtain ⟨hx, hxs⟩ := hpw
    by_cases hcx : c l.price x.price = true
    · have hlx : P l.price x.price := (hc _ _).mp hcx
      simp only [insertSorted, hcx, if_true, sidePrices, List.map_cons]
      refine List.Pairwise.cons ?_ (List.Pairwise.cons hx hxs)
      intro y hy
      rcases List.mem_cons.mp hy with rfl | hy
      · exact hlx
      · exact htrans hlx (hx y hy)
    · have hxl : P x.price l.price := by
        have hne' : x.price ≠ l.price := hne x (by simp)
        rcases htot l.price x.price (fun h => hne' h.symm) with h | h
        · exact absurd ((hc _ _).mpr h) hcx
        · exact h
      simp only [insertSorted, hcx, if_false, sidePrices, List.map_cons]
      refine List.Pairwise.cons ?_ ?_
      · intro y hy
        have hperm := (insertSorted_perm c l xs).map (fun l => l.price)
        have hy' : y ∈ l.price :: xs.map (fun l => l.price) := by
          have := hperm.mem_iff.mp (by simpa [sidePrices] using hy)
          simpa using this
        rcases List.mem_cons.mp hy' with rfl | hy'
        · exact hxl
        · exact hx y (by simpa using hy')
      · exact ih (fun z hz => hne z (by simp [hz])) hxs

theorem orders_sublist_sideNodes {l : Level} {side : List Level} (hl : l ∈ side) :
    l.orders.Sublist (sideNodes side) := by
  induction side with
  | nil => simp at hl
  | cons x xs ih =>
    rcases List.mem_cons.mp hl with rfl | hl
    · show l.orders.Sublist (l.orders ++ sideNodes xs)
      exact List.sublist_append_left _ _
    · exact (ih hl).trans (List.sublist_append_right _ _)

theorem lookupFind_some {m : List (Nat × OrderNode)} {id : Nat} {n : OrderNode}
    (h : lookupFind m id = some n) : ∃ e ∈ m, e.1 = id ∧ e.2 = n := by
  unfold lookupFind at h
  cases hf : m.find? (fun e => decide (e.1 = id)) with
  | none => rw [hf] at h; simp at h
  | some e =>
    rw [hf] at h
    refine ⟨e, List.mem_of_find?_eq_some hf, ?_, by simpa using h⟩
    have := List.find?_some hf
    simpa using this

theorem lookupFind_none {m : List (Nat × OrderNode)} {id : Nat}
    (h : lookupFind m id = none) : ∀ e ∈ m, e.1 ≠ id := by
  intro e he
  unfold lookupFind at h
  cases hf : m.find? (fun e => decide (e.1 = id)) with
  | none =>
    have := List.find?_eq_none.mp hf e he
    simpa using this
  | some _ => rw [hf] at h; simp at h

theorem lookupErase_split {m : List (Nat × OrderNode)} {id : Nat} {n : OrderNode}
    (h : lookupFind m id = some n) (hnd : (m.map Prod.fst).Nodup) :
    ∃ E₁ E₂, m = E₁ ++ (id, n) :: E₂ ∧ (∀ e ∈ E₁, e.1 ≠ id) ∧ (∀ e ∈ E₂, e.1 ≠ id) ∧
      lookupErase m id = E₁ ++ E₂ := by
  induction m with
  | nil => simp [lookupFind] at h
  | cons a t ih =>
    by_cases ha : a.1 = id
    · have han : a = (id, n) := by
        have : lookupFind (a :: t) id = some a.2 := by
          simp [lookupFind, List.find?_cons, ha]
        rw [this] at h
        have h2 : a.2 = n := by simpa using h
        cases a with
        | mk k v => simp at ha h2; simp [ha, h2]
      subst han
      have hnot : ∀ e ∈ t, e.1 ≠ id := by
        intro e he heq
        have : (id, n).1 ∉ t.map Prod.fst := (List.nodup_cons.mp (by simpa using hnd)).1
        exact this (List.mem_map.mpr ⟨e, he, heq⟩)
      exact ⟨[], t, by simp, by simp, hnot, by simp [lookupErase, List.eraseP_cons, ha]⟩
    · have htail : lookupFind t id = some n := by
        simpa [lookupFind, List.find?_cons, ha] using h
      have hnd' : (t.map Prod.fst).Nodup := (List.nodup_cons.mp (by simpa using hnd)).2
      obtain ⟨E₁, E₂, h1, h2, h3, h4⟩ := ih htail hnd'
      refine ⟨a :: E₁, E₂, by simp [h1], ?_, h3, by simp [lookupErase, List.eraseP_cons, ha]; exact h4⟩
      intro e he
      rcases List.mem_cons.mp he with rfl | he
      · exact ha
      · exact h2 e he

/-! ### Properties of setQty and the per-level mutators -/

theorem qsum_cons (n : OrderNode) (ns : List OrderNode) :
    qsum (n :: ns) = n.order.quantity + qsum ns := by
  simp [qsum]

theorem setQty_serial (s q : Nat) (m : OrderNode) : (setQty s q m).serial = m.serial := by
  unfold setQty; split <;> rfl

theorem setQty_price (s q : Nat) (m : OrderNode) :
    (setQty s q m).order.price = m.order.price := by
  unfold setQty; split <;> rfl

theorem setQty_order_id (s q : Nat) (m : OrderNode) :
    (setQty s q m).order.order_id = m.order.order_id := by
  unfold setQty; split <;> rfl

theorem setQty_is_buy (s q : Nat) (m : OrderNode) :
    (setQty s q m).order.is_buy = m.order.is_buy := by
  unfold setQty; split <;> rfl

theorem setQty_timestamp (s q : Nat) (m : OrderNode) :
    (setQty s q m).order.timestamp_ns = m.order.timestamp_ns := by
  unfold setQty; split <;> rfl

theorem setQty_self (q : Nat) (n : OrderNode) :
    setQty n.serial q n = { n with order := { n.order with quantity := q } } := by
  simp [setQty]

theorem setQty_self_quantity (q : Nat) (n : OrderNode) :
    (setQty n.serial q n).order.quantity = q := by
  simp [setQty]

theorem setQty_other {s : Nat} (q : Nat) {m : OrderNode} (h : m.serial ≠ s) :
    setQty s q m = m := by
  simp [setQty, h]

theorem map_setQty_split {ns : List OrderNode} {n : OrderNode} (q : Nat)
    (hmem : n ∈ ns) (hnodup : (ns.map (fun m => m.serial)).Nodup) :
    ∃ xs ys, ns = xs ++ n :: ys ∧ (∀ m ∈ xs, m.serial ≠ n.serial) ∧
      (∀ m ∈ ys, m.serial ≠ n.serial) ∧
      ns.map (setQty n.serial q) = xs ++ setQty n.serial q n :: ys := by
  obtain ⟨xs, ys, h1, h2, h3, _⟩ := eraseP_serial_split hmem hnodup
  refine ⟨xs, ys, h1, h2, h3, ?_⟩
  subst h1
  simp only [List.map_append, List.map_cons]
  have hx : xs.map (setQty n.serial q) = xs := by
    have := List.map_congr_left (l := xs) (f := setQty n.serial q) (g := id)
      (fun m hm => setQty_other q (h2 m hm))
    simpa using this
  have hy : ys.map (setQty n.serial q) = ys := by
    have := List.map_congr_left (l := ys) (f := setQty n.serial q) (g := id)
      (fun m hm => setQty_other q (h3 m hm))
    simpa using this
  rw [hx, hy]

theorem LevelWF_add_order {l : Level} {n : OrderNode} (hwf : LevelWF l)
    (hp : n.order.price = l.price) : LevelWF (l.add_order n) := by
  obtain ⟨h1, h2, h3, h4⟩ := hwf
  refine ⟨by simp [Level.add_order], ?_, ?_, ?_⟩
  · simp [Level.add_order, qsum_append, h2, qsum]
  · simp [Level.add_order, h3]
  · intro m hm
    simp only [Level.add_order, List.mem_append, List.mem_singleton] at hm
    rcases hm with hm | rfl
    · simpa [Level.add_order] using h4 m hm
    · simpa [Level.add_order] using hp

theorem LevelWF_init_add {p : ℚ} {n : OrderNode} (hp : n.order.price = p) :
    LevelWF ((Level.init p).add_order n) := by
  refine ⟨by simp [Level.init, Level.add_order], ?_, by simp [Level.init, Level.add_order], ?_⟩
  · simp [Level.init, Level.add_order, qsum]
  · intro m hm
    simp only [Level.init, Level.add_order, List.nil_append, List.mem_singleton] at hm
    subst hm
    simpa [Level.init, Level.add_order] using hp

theorem LevelWF_remove_order {l : Level} {n : OrderNode} (hwf : LevelWF l)
    (hn : n ∈ l.orders) (hnodup : (l.orders.map (fun m => m.serial)).Nodup)
    (hkeep : (l.remove_order n).is_empty = false) : LevelWF (l.remove_order n) := by
  obtain ⟨h1, h2, h3, h4⟩ := hwf
  obtain ⟨xs, ys, hsplit, hxs, hys, herase⟩ := eraseP_serial_split hn hnodup
  have horders : (l.remove_order n).orders = xs ++ ys := by
    simpa [Level.remove_order] using herase
  refine ⟨?_, ?_, ?_, ?_⟩
  · intro hnil
    rw [horders] at hnil
    simp [Level.is_empty, horders, hnil] at hkeep
  · show l.total_quantity - n.order.quantity = qsum (l.remove_order n).orders
    rw [horders, h2, hsplit, qsum_append, qsum_cons, qsum_append]
    omega
  · show l.order_count - 1 = (l.remove_order n).orders.length
    rw [horders, h3, hsplit]
    simp
  · intro m hm
    rw [horders] at hm
    have hm' : m ∈ l.orders := by
      rw [hsplit]
      rcases List.mem_append.mp hm with hm | hm
      · exact List.mem_append.mpr (Or.inl hm)
      · exact List.mem_append.mpr (Or.inr (List.mem_cons_of_mem n hm))
    simpa [Level.remove_order] using h4 m hm'

theorem LevelWF_update_quantity {l : Level} {n : OrderNode} {q : Nat} (hwf : LevelWF l)
    (hn : n ∈ l.orders) (hnodup : (l.orders.map (fun m => m.serial)).Nodup) :
    LevelWF (l.update_quantity n q) := by
  obtain ⟨h1, h2, h3, h4⟩ := hwf
  obtain ⟨xs, ys, hsplit, hxs, hys, hmap⟩ := map_setQty_split q hn hnodup
  refine ⟨?_, ?_, ?_, ?_⟩
  · show l.orders.map (setQty n.serial q) ≠ []
    intro hnil
    exact h1 (List.map_eq_nil_iff.mp hnil)
  · show l.total_quantity - n.order.quantity + q = qsum (l.orders.map (setQty n.serial q))
    rw [hmap, h2, hsplit, qsum_append, qsum_cons, qsum_append, qsum_cons, setQty_self_quantity]
    omega
  · show l.order_count = (l.orders.map (setQty n.serial q)).length
    simpa using h3
  · intro m hm
    show m.order.price = l.price
    simp only [Level.update_quantity] at hm
    obtain ⟨m₀, hm₀, rfl⟩ := List.mem_map.mp hm
    rw [setQty_price]
    exact h4 m₀ hm₀

/-! ### Effect of the side mutators on the node list and the price list -/

theorem add_to_side_nodes_perm (c : ℚ → ℚ → Bool) (side : List Level) (n : OrderNode) :
    (sideNodes (add_to_side c side n)).Perm (n :: sideNodes side) := by
  unfold add_to_side
  cases hfind : findLevel n.order.price side with
  | some l =>
    obtain ⟨pre, post, hs, hpre, hupd⟩ := updateLevelAt_split hfind
    rw [hupd]
    subst hs
    have e₁ : sideNodes (pre ++ l.add_order n :: post)
        = (sideNodes pre ++ l.orders) ++ n :: sideNodes post := by
      rw [sideNodes_append]
      simp [sideNodes, Level.add_order]
    have e₂ : n :: sideNodes (pre ++ l :: post)
        = n :: ((sideNodes pre ++ l.orders) ++ sideNodes post) := by
      rw [sideNodes_append]
      simp [sideNodes]
    rw [e₁, e₂]
    exact List.perm_middle
  | none =>
    have h := sideNodes_perm (insertSorted_perm c ((Level.init n.order.price).add_order n) side)
    have e : sideNodes ((Level.init n.order.price).add_order n :: side)
        = n :: sideNodes side := by
      simp [sideNodes, Level.init, Level.add_order]
    rw [e] at h
    exact h

theorem add_to_side_sorted {P : ℚ → ℚ → Prop} {c : ℚ → ℚ → Bool}
    (hc : ∀ a b : ℚ, c a b = true ↔ P a b)
    (htrans : ∀ {a b d : ℚ}, P a b → P b d → P a d)
    (htot : ∀ a b : ℚ, a ≠ b → P a b ∨ P b a)
    {side : List Level} {n : OrderNode}
    (hpw : (sidePrices side).Pairwise P) :
    (sidePrices (add_to_side c side n)).Pairwise P := by
  unfold add_to_side
  cases hfind : findLevel n.order.price side with
  | some l =>
    obtain ⟨pre, post, hs, hpre, hupd⟩ := updateLevelAt_split hfind
    rw [hupd]
    subst hs
    have e : sidePrices (pre ++ l.add_order n :: post) = sidePrices (pre ++ l :: post) := by
      simp [sidePrices, Level.add_order]
    rw [e]
    exact hpw
  | none =>
    refine insertSorted_pairwise hc htrans htot ?_ hpw
    intro x hx
    simpa [Level.init, Level.add_order] using findLevel_none hfind x hx

theorem sidePrices_remove_sublist (side : List Level) (n : OrderNode) :
    (sidePrices (remove_from_side side n)).Sublist (sidePrices side) := by
  induction side with
  | nil => simp [remove_from_side]
  | cons x xs ih =>
    by_cases hx : x.price = n.order.price
    · by_cases hemp : (x.remove_order n).is_empty
      · simp only [remove_from_side, hx, if_true, hemp]
        exact (List.Sublist.refl _).cons _
      · simp only [remove_from_side, hx, if_true, hemp, if_false]
        show sidePrices (x.remove_order n :: xs) |>.Sublist (sidePrices (x :: xs))
        have e : sidePrices (x.remove_order n :: xs) = x.price :: sidePrices xs := by
          simp [sidePrices, Level.remove_order]
        rw [e]
        exact List.Sublist.refl _
    · simp only [remove_from_side, hx, if_false]
      show sidePrices (x :: remove_from_side xs n) |>.Sublist (sidePrices (x :: xs))
      simp only [sidePrices, List.map_cons]
      exact (ih).cons₂ _

theorem remove_from_side_nodes {side : List Level} {n : OrderNode} {l : Level}
    (hfind : findLevel n.order.price side = some l) (hnl : n ∈ l.orders)
    (hnodup : ((sideNodes side).map (fun m => m.serial)).Nodup) :
    ∃ A B, sideNodes side = A ++ n :: B ∧
      sideNodes (remove_from_side side n) = A ++ B := by
  obtain ⟨pre, post, hs, hpre, hrem⟩ := remove_from_side_split hfind
  have hlmem : l ∈ side := findLevel_mem hfind
  have hlnodup : (l.orders.map (fun m => m.serial)).Nodup :=
    (((orders_sublist_sideNodes hlmem).map _)).nodup hnodup
  obtain ⟨xs, ys, hsplit, hxs, hys, herase⟩ := eraseP_serial_split hnl hlnodup
  subst hs
  refine ⟨sideNodes pre ++ xs, ys ++ sideNodes post, ?_, ?_⟩
  · rw [sideNodes_append]
    simp [sideNodes, hsplit]
  · rw [hrem]
    by_cases hemp : (l.remove_order n).is_empty
    · have hxy : xs ++ ys = [] := by
        have : (l.remove_order n).orders = xs ++ ys := by
          simpa [Level.remove_order] using herase
        simpa [Level.is_empty, this] using hemp
      have hx0 : xs = [] := by
        cases xs with
        | nil => rfl
        | cons a t => simp at hxy
      have hy0 : ys = [] := by
        rw [hx0] at hxy
        simpa using hxy
      subst hx0; subst hy0
      rw [hemp]
      simp only [if_true, sideNodes_append]
      simp
    · rw [if_neg hemp]
      rw [sideNodes_append]
      simp [sideNodes, Level.remove_order, herase]

theorem update_quantity_in_place_nodes {side : List Level} {n : OrderNode} {l : Level}
    (q : Nat)
    (hfind : findLevel n.order.price side = some l) (hnl : n ∈ l.orders)
    (hnodup : ((sideNodes side).map (fun m => m.serial)).Nodup) :
    ∃ A B, sideNodes side = A ++ n :: B ∧
      sideNodes (update_quantity_in_place side n q) = A ++ setQty n.serial q n :: B := by
  obtain ⟨pre, post, hs, hpre, hupd⟩ := updateLevelAt_split hfind
  have hlmem : l ∈ side := findLevel_mem hfind
  have hlnodup : (l.orders.map (fun m => m.serial)).Nodup :=
    (((orders_sublist_sideNodes hlmem).map _)).nodup hnodup
  obtain ⟨xs, ys, hsplit, hxs, hys, hmap⟩ := map_setQty_split q hnl hlnodup
  subst hs
  refine ⟨sideNodes pre ++ xs, ys ++ sideNodes post, ?_, ?_⟩
  · rw [sideNodes_append]
    simp [sideNodes, hsplit]
  · unfold update_quantity_in_place
    rw [hupd]
    rw [sideNodes_append]
    simp [sideNodes, Level.update_quantity, hmap]

theorem sidePrices_update_quantity_in_place (side : List Level) (n : OrderNode) (q : Nat) :
    sidePrices (update_quantity_in_place side n q) = sidePrices side := by
  unfold update_quantity_in_place
  induction side with
  | nil => rfl
  | cons x xs ih =>
    by_cases hx : x.price = n.order.price
    · simp [updateLevelAt, hx, sidePrices, Level.update_quantity]
    · simp only [updateLevelAt, hx, if_false, sidePrices, List.map_cons] at ih ⊢
      rw [ih]

theorem add_to_side_wf {c : ℚ → ℚ → Bool} {side : List Level} {n : OrderNode}
    (hwf : ∀ l ∈ side, LevelWF l) :
    ∀ l ∈ add_to_side c side n, LevelWF l := by
  intro l hl
  unfold add_to_side at hl
  cases hfind : findLevel n.order.price side with
  | some l₀ =>
    rw [hfind] at hl
    obtain ⟨pre, post, hs, hpre, hupd⟩ := updateLevelAt_split hfind
    rw [hupd _] at hl
    have hp : n.order.price = l₀.price := (findLevel_price hfind).symm
    rcases List.mem_append.mp hl with hpre' | hl
    · exact hwf l (by rw [hs]; exact List.mem_append.mpr (Or.inl hpre'))
    · rcases List.mem_cons.mp hl with rfl | hpost
      · exact LevelWF_add_order (hwf l₀ (findLevel_mem hfind)) hp
      · exact hwf l (by rw [hs]; exact List.mem_append.mpr (Or.inr (List.mem_cons_of_mem _ hpost)))
  | none =>
    rw [hfind] at hl
    rcases mem_insertSorted.mp hl with rfl | hl
    · exact LevelWF_init_add rfl
    · exact hwf l hl

theorem remove_from_side_nodes_sublist (side : List Level) (n : OrderNode) :
    (sideNodes (remove_from_side side n)).Sublist (sideNodes side) := by
  induction side with
  | nil => simp [remove_from_side]
  | cons x xs ih =>
    by_cases hx : x.price = n.order.price
    · by_cases hemp : (x.remove_order n).is_empty = true
      · have e : remove_from_side (x :: xs) n = xs := by
          simp [remove_from_side, hx, hemp]
        rw [e]
        show (sideNodes xs).Sublist (x.orders ++ sideNodes xs)
        exact List.sublist_append_right _ _
      · have e : remove_from_side (x :: xs) n = x.remove_order n :: xs := by
          simp [remove_from_side, hx, hemp]
        rw [e]
        show ((x.remove_order n).orders ++ sideNodes xs).Sublist (x.orders ++ sideNodes xs)
        refine List.Sublist.append ?_ (List.Sublist.refl _)
        have h := List.eraseP_sublist (p := fun m => decide (m.serial = n.serial)) x.orders
        simpa [Level.remove_order] using h
    · have e : remove_from_side (x :: xs) n = x :: remove_from_side xs n := by
        simp [remove_from_side, hx]
      rw [e]
      show (x.orders ++ sideNodes (remove_from_side xs n)).Sublist (x.orders ++ sideNodes xs)
      exact List.Sublist.append (List.Sublist.refl _) ih

theorem remove_from_side_wf {side : List Level} {n : OrderNode} {l : Level}
    (hfind : findLevel n.order.price side = some l) (hnl : n ∈ l.orders)
    (hnodup : ((sideNodes side).map (fun m => m.serial)).Nodup)
    (hwf : ∀ x ∈ side, LevelWF x) :
    ∀ x ∈ remove_from_side side n, LevelWF x := by
  obtain ⟨pre, post, hs, hpre, hrem⟩ := remove_from_side_split hfind
  have hlnodup : (l.orders.map (fun m => m.serial)).Nodup :=
    ((orders_sublist_sideNodes (findLevel_mem hfind)).map _).nodup hnodup
  intro x hx
  rw [hrem] at hx
  rcases List.mem_append.mp hx with hx | hx
  · exact hwf x (by rw [hs]; exact List.mem_append.mpr (Or.inl hx))
  · by_cases hemp : (l.remove_order n).is_empty = true
    · rw [if_pos hemp] at hx
      exact hwf x (by rw [hs]; exact List.mem_append.mpr (Or.inr (List.mem_cons_of_mem _ hx)))
    · rw [if_neg hemp] at hx
      rcases List.mem_cons.mp hx with rfl | hx
      · exact LevelWF_remove_order (hwf l (findLevel_mem hfind)) hnl hlnodup
          (by simpa using hemp)
      · exact hwf x (by rw [hs]; exact List.mem_append.mpr (Or.inr (List.mem_cons_of_mem _ hx)))

theorem update_quantity_in_place_wf {side : List Level} {n : OrderNode} {l : Level} {q : Nat}
    (hfind : findLevel n.order.price side = some l) (hnl : n ∈ l.orders)
    (hnodup : ((sideNodes side).map (fun m => m.serial)).Nodup)
    (hwf : ∀ x ∈ side, LevelWF x) :
    ∀ x ∈ update_quantity_in_place side n q, LevelWF x := by
  obtain ⟨pre, post, hs, hpre, hupd⟩ := updateLevelAt_split hfind
  have hlnodup : (l.orders.map (fun m => m.serial)).Nodup :=
    ((orders_sublist_sideNodes (findLevel_mem hfind)).map _).nodup hnodup
  intro x hx
  unfold update_quantity_in_place at hx
  rw [hupd _] at hx
  rcases List.mem_append.mp hx with hx | hx
  · exact hwf x (by rw [hs]; exact List.mem_append.mpr (Or.inl hx))
  · rcases List.mem_cons.mp hx with rfl | hx
    · exact LevelWF_update_quantity (hwf l (findLevel_mem hfind)) hnl hlnodup
    · exact hwf x (by rw [hs]; exact List.mem_append.mpr (Or.inr (List.mem_cons_of_mem _ hx)))

/-! ### Preservation of well-formedness by the public operations -/

theorem add_order_def (b : OrderBook) (o : Order) :
    b.add_order o = { b with
      order_lookup := lookupEmplace b.order_lookup o.order_id ⟨o, b.next_serial⟩
      cache_valid := false
      bid_levels :=
        if o.is_buy then add_to_side bidCmp b.bid_levels ⟨o, b.next_serial⟩ else b.bid_levels
      ask_levels :=
        if o.is_buy then b.ask_levels else add_to_side askCmp b.ask_levels ⟨o, b.next_serial⟩
      total_orders := b.total_orders + 1
      next_serial := b.next_serial + 1 } := rfl

theorem add_order_nodes_perm (b : OrderBook) (o : Order) :
    (bookNodes (b.add_order o)).Perm
      ((⟨o, b.next_serial⟩ : OrderNode) :: bookNodes b) := by
  by_cases hb : o.is_buy
  · have h := (add_to_side_nodes_perm bidCmp b.bid_levels ⟨o, b.next_serial⟩).append_right
      (sideNodes b.ask_levels)
    simpa [bookNodes, add_order_def, hb] using h
  · have h := List.Perm.append_left (sideNodes b.bid_levels)
      (add_to_side_nodes_perm askCmp b.ask_levels ⟨o, b.next_serial⟩)
    have h2 : (sideNodes b.bid_levels ++
        (⟨o, b.next_serial⟩ : OrderNode) :: sideNodes b.ask_levels).Perm
        ((⟨o, b.next_serial⟩ : OrderNode) ::
          (sideNodes b.bid_levels ++ sideNodes b.ask_levels)) :=
      List.perm_middle
    have h3 := h.trans h2
    simpa [bookNodes, add_order_def, hb] using h3

theorem bidCmp_iff (a b : ℚ) : bidCmp a b = true ↔ b < a := by simp [bidCmp]

theorem askCmp_iff (a b : ℚ) : askCmp a b = true ↔ a < b := by simp [askCmp]

theorem wf_add (b : OrderBook) (hWF : BookWF b) (o : Order) : BookWF (b.add_order o) := by
  have hperm := add_order_nodes_perm b o
  have hserials : (bookSerials (b.add_order o)).Perm (b.next_serial :: bookSerials b) := by
    have h := hperm.map (fun m => m.serial)
    simpa [bookSerials] using h
  have hfreshnotin : b.next_serial ∉ bookSerials b := fun hmem =>
    absurd (hWF.serials_lt _ hmem) (lt_irrefl _)
  have hnext : (b.add_order o).next_serial = b.next_serial + 1 := by
    rw [add_order_def]
  refine ⟨?_, ?_, ?_, ?_, ?_, ?_, ?_, ?_, ?_, ?_, ?_, ?_⟩
  · by_cases hb : o.is_buy
    · have h := add_to_side_sorted (n := ⟨o, b.next_serial⟩) bidCmp_iff
        (fun hab hbd => lt_trans hbd hab)
        (fun a c h => (lt_or_gt_of_ne h).symm.imp id id) hWF.bid_sorted
      simpa [add_order_def, hb] using h
    · simpa [add_order_def, hb] using hWF.bid_sorted
  · by_cases hb : o.is_buy
    · simpa [add_order_def, hb] using hWF.ask_sorted
    · have h := add_to_side_sorted (n := ⟨o, b.next_serial⟩) askCmp_iff
        (fun hab hbd => lt_trans hab hbd)
        (fun a c h => lt_or_gt_of_ne h) hWF.ask_sorted
      simpa [add_order_def, hb] using h
  · by_cases hb : o.is_buy
    · have h := add_to_side_wf (c := bidCmp) (n := ⟨o, b.next_serial⟩) hWF.bid_wf
      simpa [add_order_def, hb] using h
    · simpa [add_order_def, hb] using hWF.bid_wf
  · by_cases hb : o.is_buy
    · simpa [add_order_def, hb] using hWF.ask_wf
    · have h := add_to_side_wf (c := askCmp) (n := ⟨o, b.next_serial⟩) hWF.ask_wf
      simpa [add_order_def, hb] using h
  · intro m hm
    by_cases hb : o.is_buy
    · have hm' : m ∈ sideNodes (add_to_side bidCmp b.bid_levels ⟨o, b.next_serial⟩) := by
        simpa [add_order_def, hb] using hm
      have := (add_to_side_nodes_perm bidCmp b.bid_levels ⟨o, b.next_serial⟩).mem_iff.mp hm'
      rcases List.mem_cons.mp this with rfl | hold
      · exact hb
      · exact hWF.bid_buy m hold
    · have hm' : m ∈ sideNodes b.bid_levels := by simpa [add_order_def, hb] using hm
      exact hWF.bid_buy m hm'
  · intro m hm
    by_cases hb : o.is_buy
    · have hm' : m ∈ sideNodes b.ask_levels := by simpa [add_order_def, hb] using hm
      exact hWF.ask_sell m hm'
    · have hm' : m ∈ sideNodes (add_to_side askCmp b.ask_levels ⟨o, b.next_serial⟩) := by
        simpa [add_order_def, hb] using hm
      have := (add_to_side_nodes_perm askCmp b.ask_levels ⟨o, b.next_serial⟩).mem_iff.mp hm'
      rcases List.mem_cons.mp this with rfl | hold
      · simpa using hb
      · exact hWF.ask_sell m hold
  · refine hserials.symm.nodup (List.nodup_cons.mpr ⟨hfreshnotin, hWF.serials_nodup⟩)
  · intro s hs
    rw [hnext]
    rcases List.mem_cons.mp (hserials.mem_iff.mp hs) with rfl | hold
    · omega
    · exact lt_trans (hWF.serials_lt s hold) (by omega)
  · show ((lookupEmplace b.order_lookup o.order_id ⟨o, b.next_serial⟩).map Prod.fst).Nodup
    unfold lookupEmplace
    by_cases hfound : (b.order_lookup.find? (fun e => decide (e.1 = o.order_id))).isSome
    · simpa [hfound] using hWF.keys_nodup
    · have hnone : b.order_lookup.find? (fun e => decide (e.1 = o.order_id)) = none :=
        Option.not_isSome_iff_eq_none.mp hfound
      have hnotin : ∀ e ∈ b.order_lookup, e.1 ≠ o.order_id := by
        intro e he
        have := List.find?_eq_none.mp hnone e he
        simpa using this
      rw [if_neg hfound]
      rw [List.map_append]
      rw [List.nodup_append]
      refine ⟨hWF.keys_nodup, by simp, ?_⟩
      intro k hk hk2
      obtain ⟨e, he, rfl⟩ := List.mem_map.mp hk
      simp only [List.map_cons, List.map_nil, List.mem_singleton] at hk2
      exact hnotin e he hk2
  · intro e he
    have he' : e ∈ lookupEmplace b.order_lookup o.order_id ⟨o, b.next_serial⟩ := he
    unfold lookupEmplace at he'
    by_cases hfound : (b.order_lookup.find? (fun e => decide (e.1 = o.order_id))).isSome
    · rw [if_pos hfound] at he'
      exact hWF.lookup_id e he'
    · rw [if_neg hfound] at he'
      rcases List.mem_append.mp he' with he' | he'
      · exact hWF.lookup_id e he'
      · simp only [List.mem_singleton] at he'
        subst he'
        rfl
  · intro e he
    have he' : e ∈ lookupEmplace b.order_lookup o.order_id ⟨o, b.next_serial⟩ := he
    unfold lookupEmplace at he'
    by_cases hfound : (b.order_lookup.find? (fun e => decide (e.1 = o.order_id))).isSome
    · rw [if_pos hfound] at he'
      exact hperm.mem_iff.mpr (List.mem_cons_of_mem _ (hWF.lookup_mem e he'))
    · rw [if_neg hfound] at he'
      rcases List.mem_append.mp he' with he' | he'
      · exact hperm.mem_iff.mpr (List.mem_cons_of_mem _ (hWF.lookup_mem e he'))
      · simp only [List.mem_singleton] at he'
        subst he'
        exact hperm.mem_iff.mpr (List.mem_cons_self _ _)
  · intro hvalid
    rw [add_order_def] at hvalid
    simp at hvalid

theorem cancel_order_def_none (b : OrderBook) {id : Nat}
    (h : lookupFind b.order_lookup id = none) : b.cancel_order id = (false, b) := by
  unfold OrderBook.cancel_order
  rw [h]

theorem cancel_order_def_found (b : OrderBook) {id : Nat} {n : OrderNode}
    (h : lookupFind b.order_lookup id = some n) :
    b.cancel_order id = (true, { b with
      cache_valid := false
      bid_levels := if n.order.is_buy then remove_from_side b.bid_levels n else b.bid_levels
      ask_levels := if n.order.is_buy then b.ask_levels else remove_from_side b.ask_levels n
      order_lookup := lookupErase b.order_lookup id
      total_cancels := b.total_cancels + 1 }) := by
  unfold OrderBook.cancel_order
  rw [h]

theorem found_id (b : OrderBook) (hWF : BookWF b) {id : Nat} {n : OrderNode}
    (hfind : lookupFind b.order_lookup id = some n) : n.order.order_id = id := by
  obtain ⟨e, hem, hekey, heval⟩ := lookupFind_some hfind
  rw [← heval, hWF.lookup_id e hem]
  exact hekey

theorem found_mem (b : OrderBook) (hWF : BookWF b) {id : Nat} {n : OrderNode}
    (hfind : lookupFind b.order_lookup id = some n) : n ∈ bookNodes b := by
  obtain ⟨e, hem, _, heval⟩ := lookupFind_some hfind
  exact heval ▸ hWF.lookup_mem e hem

theorem bid_serials_nodup (b : OrderBook) (hWF : BookWF b) :
    ((sideNodes b.bid_levels).map (fun m => m.serial)).Nodup :=
  ((List.sublist_append_left (sideNodes b.bid_levels) (sideNodes b.ask_levels)).map _).nodup
    hWF.serials_nodup

theorem ask_serials_nodup (b : OrderBook) (hWF : BookWF b) :
    ((sideNodes b.ask_levels).map (fun m => m.serial)).Nodup :=
  ((List.sublist_append_right (sideNodes b.bid_levels) (sideNodes b.ask_levels)).map _).nodup
    hWF.serials_nodup

/-- The node a found Index entry designates rests, on the bid side, at
the level `findLevel` locates for its price. -/
theorem found_bid_level (b : OrderBook) (hWF : BookWF b) {n : OrderNode}
    (hbid : n ∈ sideNodes b.bid_levels) :
    ∃ l, findLevel n.order.price b.bid_levels = some l ∧ n ∈ l.orders :=
  findLevel_contains (P := fun a c => c < a) (fun a => lt_irrefl a)
    hWF.bid_sorted hWF.bid_wf hbid

/-- Ask-side counterpart of `found_bid_level`. -/
theorem found_ask_level (b : OrderBook) (hWF : BookWF b) {n : OrderNode}
    (hask : n ∈ sideNodes b.ask_levels) :
    ∃ l, findLevel n.order.price b.ask_levels = some l ∧ n ∈ l.orders :=
  findLevel_contains (P := fun a c => a < c) (fun a => lt_irrefl a)
    hWF.ask_sorted hWF.ask_wf hask

/-- Removing a found order splits the book's node list around the node. -/
theorem cancel_nodes_split (b : OrderBook) (hWF : BookWF b) {id : Nat} {n : OrderNode}
    (hfind : lookupFind b.order_lookup id = some n) :
    ∃ A B, bookNodes b = A ++ n :: B ∧ bookNodes (b.cancel_order id).2 = A ++ B := by
  have hnmem : n ∈ sideNodes b.bid_levels ++ sideNodes b.ask_levels := found_mem b hWF hfind
  rcases List.mem_append.mp hnmem with hbid | hask
  · have hbuy : n.order.is_buy = true := hWF.bid_buy n hbid
    obtain ⟨l, hfl, hnl⟩ := found_bid_level b hWF hbid
    obtain ⟨A, B, hAB, hAB'⟩ := remove_from_side_nodes hfl hnl (bid_serials_nodup b hWF)
    refine ⟨A, B ++ sideNodes b.ask_levels, ?_, ?_⟩
    · show sideNodes b.bid_levels ++ sideNodes b.ask_levels = _
      rw [hAB]; simp
    · have e : bookNodes (b.cancel_order id).2
          = sideNodes (remove_from_side b.bid_levels n) ++ sideNodes b.ask_levels := by
        rw [cancel_order_def_found b hfind]
        simp [bookNodes, hbuy]
      rw [e, hAB']; simp
  · have hsell : n.order.is_buy = false := hWF.ask_sell n hask
    obtain ⟨l, hfl, hnl⟩ := found_ask_level b hWF hask
    obtain ⟨A, B, hAB, hAB'⟩ := remove_from_side_nodes hfl hnl (ask_serials_nodup b hWF)
    refine ⟨sideNodes b.bid_levels ++ A, B, ?_, ?_⟩
    · show sideNodes b.bid_levels ++ sideNodes b.ask_levels = _
      rw [hAB]; simp
    · have e : bookNodes (b.cancel_order id).2
          = sideNodes b.bid_levels ++ sideNodes (remove_from_side b.ask_levels n) := by
        rw [cancel_order_def_found b hfind]
        simp [bookNodes, hsell]
      rw [e, hAB']; simp

/-- Surviving Index entries of a mutation that removes node `n` and erases
key `id` still point into the remaining node list. -/
theorem lookup_mem_of_split (b : OrderBook) (hWF : BookWF b) {id : Nat} {n : OrderNode}
    (hfind : lookupFind b.order_lookup id = some n)
    {A B : List OrderNode} (hab : bookNodes b = A ++ n :: B) :
    ∀ e ∈ lookupErase b.order_lookup id, e.2 ∈ A ++ B := by
  obtain ⟨E₁, E₂, hE, hE₁, hE₂, hEr⟩ := lookupErase_split hfind hWF.keys_nodup
  have hnid : n.order.order_id = id := found_id b hWF hfind
  intro e he
  rw [hEr] at he
  have hkey : e.1 ≠ id := by
    rcases List.mem_append.mp he with h | h
    · exact hE₁ e h
    · exact hE₂ e h
  have hmem : e ∈ b.order_lookup := by
    rw [hE]
    rcases List.mem_append.mp he with h | h
    · exact List.mem_append.mpr (Or.inl h)
    · exact List.mem_append.mpr (Or.inr (List.mem_cons_of_mem _ h))
  have hval : e.2 ∈ bookNodes b := hWF.lookup_mem e hmem
  have hne : e.2 ≠ n := by
    intro heq
    apply hkey
    rw [← hWF.lookup_id e hmem, heq, hnid]
  rw [hab] at hval
  rcases List.mem_append.mp hval with h | h
  · exact List.mem_append.mpr (Or.inl h)
  · rcases List.mem_cons.mp h with heq | h
    · exact absurd heq hne
    · exact List.mem_append.mpr (Or.inr h)

theorem wf_cancel (b : OrderBook) (hWF : BookWF b) (id : Nat) :
    BookWF (b.cancel_order id).2 := by
  cases hfind : lookupFind b.order_lookup id with
  | none => rw [cancel_order_def_none b hfind]; exact hWF
  | some n =>
    obtain ⟨A, B, hAB, hAB'⟩ := cancel_nodes_split b hWF hfind
    have hsubnodes : (bookNodes (b.cancel_order id).2).Sublist (bookNodes b) := by
      rw [hAB, hAB']
      exact List.Sublist.append (List.Sublist.refl _) (List.sublist_cons_self _ _)
    have hlookup : (b.cancel_order id).2.order_lookup = lookupErase b.order_lookup id := by
      rw [cancel_order_def_found b hfind]
    have hnext : (b.cancel_order id).2.next_serial = b.next_serial := by
      rw [cancel_order_def_found b hfind]
    have hcache : (b.cancel_order id).2.cache_valid = false := by
      rw [cancel_order_def_found b hfind]
    have hnmem : n ∈ sideNodes b.bid_levels ++ sideNodes b.ask_levels := found_mem b hWF hfind
    refine ⟨?_, ?_, ?_, ?_, ?_, ?_, ?_, ?_, ?_, ?_, ?_, ?_⟩
    · rcases List.mem_append.mp hnmem with hside | hside
      · have hbuy := hWF.bid_buy n hside
        have e : (b.cancel_order id).2.bid_levels = remove_from_side b.bid_levels n := by
          rw [cancel_order_def_found b hfind]; simp [hbuy]
        rw [e]
        exact List.Pairwise.sublist (sidePrices_remove_sublist _ _) hWF.bid_sorted
      · have hsell := hWF.ask_sell n hside
        have e : (b.cancel_order id).2.bid_levels = b.bid_levels := by
          rw [cancel_order_def_found b hfind]; simp [hsell]
        rw [e]; exact hWF.bid_sorted
    · rcases List.mem_append.mp hnmem with hside | hside
      · have hbuy := hWF.bid_buy n hside
        have e : (b.cancel_order id).2.ask_levels = b.ask_levels := by
          rw [cancel_order_def_found b hfind]; simp [hbuy]
        rw [e]; exact hWF.ask_sorted
      · have hsell := hWF.ask_sell n hside
        have e : (b.cancel_order id).2.ask_levels = remove_from_side b.ask_levels n := by
          rw [cancel_order_def_found b hfind]; simp [hsell]
        rw [e]
        exact List.Pairwise.sublist (sidePrices_remove_sublist _ _) hWF.ask_sorted
    · rcases List.mem_append.mp hnmem with hside | hside
      · have hbuy := hWF.bid_buy n hside
        obtain ⟨l, hfl, hnl⟩ := found_bid_level b hWF hside
        have e : (b.cancel_order id).2.bid_levels = remove_from_side b.bid_levels n := by
          rw [cancel_order_def_found b hfind]; simp [hbuy]
        rw [e]
        exact remove_from_side_wf hfl hnl (bid_serials_nodup b hWF) hWF.bid_wf
      · have hsell := hWF.ask_sell n hside
        have e : (b.cancel_order id).2.bid_levels = b.bid_levels := by
          rw [cancel_order_def_found b hfind]; simp [hsell]
        rw [e]; exact hWF.bid_wf
    · rcases List.mem_append.mp hnmem with hside | hside
      · have hbuy := hWF.bid_buy n hside
        have e : (b.cancel_order id).2.ask_levels = b.ask_levels := by
          rw [cancel_order_def_found b hfind]; simp [hbuy]
        rw [e]; exact hWF.ask_wf
      · have hsell := hWF.ask_sell n hside
        obtain ⟨l, hfl, hnl⟩ := found_ask_level b hWF hside
        have e : (b.cancel_order id).2.ask_levels = remove_from_side b.ask_levels n := by
          rw [cancel_order_def_found b hfind]; simp [hsell]
        rw [e]
        exact remove_from_side_wf hfl hnl (ask_serials_nodup b hWF) hWF.ask_wf
    · intro m hm
      rcases List.mem_append.mp hnmem with hside | hside
      · have hbuy := hWF.bid_buy n hside
        have e : (b.cancel_order id).2.bid_levels = remove_from_side b.bid_levels n := by
          rw [cancel_order_def_found b hfind]; simp [hbuy]
        rw [e] at hm
        exact hWF.bid_buy m ((remove_from_side_nodes_sublist _ _).subset hm)
      · have hsell := hWF.ask_sell n hside
        have e : (b.cancel_order id).2.bid_levels = b.bid_levels := by
          rw [cancel_order_def_found b hfind]; simp [hsell]
        rw [e] at hm
        exact hWF.bid_buy m hm
    · intro m hm
      rcases List.mem_append.mp hnmem with hside | hside
      · have hbuy := hWF.bid_buy n hside
        have e : (b.cancel_order id).2.ask_levels = b.ask_levels := by
          rw [cancel_order_def_found b hfind]; simp [hbuy]
        rw [e] at hm
        exact hWF.ask_sell m hm
      · have hsell := hWF.ask_sell n hside
        have e : (b.cancel_order id).2.ask_levels = remove_from_side b.ask_levels n := by
          rw [cancel_order_def_found b hfind]; simp [hsell]
        rw [e] at hm
        exact hWF.ask_sell m ((remove_from_side_nodes_sublist _ _).subset hm)
    · exact (hsubnodes.map _).nodup hWF.serials_nodup
    · intro s hs
      rw [hnext]
      exact hWF.serials_lt s ((hsubnodes.map _).subset hs)
    · rw [hlookup]
      exact ((List.eraseP_sublist _).map _).nodup hWF.keys_nodup
    · intro e he
      rw [hlookup] at he
      exact hWF.lookup_id e ((List.eraseP_sublist _).subset he)
    · intro e he
      rw [hlookup] at he
      have := lookup_mem_of_split b hWF hfind hAB e he
      rw [hAB']
      exact this
    · intro hvalid
      rw [hcache] at hvalid
      simp at hvalid

theorem amend_order_def_none (b : OrderBook) {id : Nat} (p : ℚ) (q now : Nat)
    (h : lookupFind b.order_lookup id = none) : b.amend_order id p q now = (false, b) := by
  unfold OrderBook.amend_order
  rw [h]

theorem amend_order_def_price (b : OrderBook) {id : Nat} {n : OrderNode} {p : ℚ} (q now : Nat)
    (hfind : lookupFind b.order_lookup id = some n)
    (hp : eps < ratAbs (n.order.price - p)) :
    b.amend_order id p q now =
      (true,
        { ({ b with cache_valid := false }.cancel_order id).2.add_order
              { n.order with price := p, quantity := q, timestamp_ns := now } with
          total_amends :=
            (({ b with cache_valid := false }.cancel_order id).2.add_order
              { n.order with price := p, quantity := q, timestamp_ns := now }).total_amends
              + 1 }) := by
  simp only [OrderBook.amend_order, hfind]
  rw [if_pos hp]

theorem amend_order_def_qty_bid (b : OrderBook) {id : Nat} {n : OrderNode} {p : ℚ} (q now : Nat)
    (hfind : lookupFind b.order_lookup id = some n)
    (hp : ¬ eps < ratAbs (n.order.price - p)) (hbuy : n.order.is_buy = true)
    {l : Level} (hfl : findLevel n.order.price b.bid_levels = some l) :
    b.amend_order id p q now =
      (true, { b with
        cache_valid := false
        bid_levels := update_quantity_in_place b.bid_levels n q
        order_lookup :=
          b.order_lookup.map (fun (e : Nat × OrderNode) => (e.1, setQty n.serial q e.2))
        total_amends := b.total_amends + 1 }) := by
  simp only [OrderBook.amend_order, hfind]
  rw [if_neg hp]
  simp [hbuy, hfl]

theorem amend_order_def_qty_ask (b : OrderBook) {id : Nat} {n : OrderNode} {p : ℚ} (q now : Nat)
    (hfind : lookupFind b.order_lookup id = some n)
    (hp : ¬ eps < ratAbs (n.order.price - p)) (hsell : n.order.is_buy = false)
    {l : Level} (hfl : findLevel n.order.price b.ask_levels = some l) :
    b.amend_order id p q now =
      (true, { b with
        cache_valid := false
        ask_levels := update_quantity_in_place b.ask_levels n q
        order_lookup :=
          b.order_lookup.map (fun (e : Nat × OrderNode) => (e.1, setQty n.serial q e.2))
        total_amends := b.total_amends + 1 }) := by
  simp only [OrderBook.amend_order, hfind]
  rw [if_neg hp]
  simp [hsell, hfl]

theorem wf_bump_amends (b : OrderBook) (hWF : BookWF b) :
    BookWF { b with total_amends := b.total_amends + 1 } := by
  obtain ⟨h1, h2, h3, h4, h5, h6, h7, h8, h9, h10, h11, h12⟩ := hWF
  exact ⟨h1, h2, h3, h4, h5, h6, h7, h8, h9, h10, h11, h12⟩

theorem wf_cache_false (b : OrderBook) (hWF : BookWF b) :
    BookWF { b with cache_valid := false } := by
  obtain ⟨h1, h2, h3, h4, h5, h6, h7, h8, h9, h10, h11, _⟩ := hWF
  exact ⟨h1, h2, h3, h4, h5, h6, h7, h8, h9, h10, h11, by intro h; simp at h⟩

theorem lookup_map_keys (m : List (Nat × OrderNode)) (s q : Nat) :
    ((m.map (fun (e : Nat × OrderNode) => (e.1, setQty s q e.2))).map Prod.fst)
      = m.map Prod.fst := by
  rw [List.map_map]
  rfl

theorem nodup_split_middle {A B : List OrderNode} {n : OrderNode}
    (h : ((A ++ n :: B).map (fun m => m.serial)).Nodup) :
    (∀ m ∈ A, m.serial ≠ n.serial) ∧ (∀ m ∈ B, m.serial ≠ n.serial) := by
  rw [List.map_append, List.map_cons] at h
  rw [List.nodup_append] at h
  obtain ⟨hA, hB, hdisj⟩ := h
  constructor
  · intro m hm heq
    exact hdisj (List.mem_map.mpr ⟨m, hm, rfl⟩) (heq ▸ List.mem_cons_self _ _)
  · intro m hm heq
    exact (List.nodup_cons.mp hB).1 (heq ▸ List.mem_map.mpr ⟨m, hm, rfl⟩)

theorem wf_amend (b : OrderBook) (hWF : BookWF b) (id : Nat) (p : ℚ) (q now : Nat) :
    BookWF (b.amend_order id p q now).2 := by
  cases hfind : lookupFind b.order_lookup id with
  | none => rw [amend_order_def_none b p q now hfind]; exact hWF
  | some n =>
    by_cases hp : eps < ratAbs (n.order.price - p)
    · rw [amend_order_def_price b q now hfind hp]
      exact wf_bump_amends _ (wf_add _ (wf_cancel _ (wf_cache_false b hWF) id) _)
    · have hnmem : n ∈ sideNodes b.bid_levels ++ sideNodes b.ask_levels := found_mem b hWF hfind
      rcases List.mem_append.mp hnmem with hside | hside
      · have hbuy := hWF.bid_buy n hside
        obtain ⟨l, hfl, hnl⟩ := found_bid_level b hWF hside
        obtain ⟨A, B, hAB, hAB'⟩ :=
          update_quantity_in_place_nodes q hfl hnl (bid_serials_nodup b hWF)
        rw [amend_order_def_qty_bid b q now hfind hp hbuy hfl]
        have hb : bookNodes b = A ++ n :: (B ++ sideNodes b.ask_levels) := by
          show sideNodes b.bid_levels ++ sideNodes b.ask_levels = _
          rw [hAB]; simp
        have hnd : ((A ++ n :: (B ++ sideNodes b.ask_levels)).map
            (fun m => m.serial)).Nodup := by
          have h0 := hWF.serials_nodup
          unfold bookSerials at h0
          rw [hb] at h0
          exact h0
        obtain ⟨hndA, hndB⟩ := nodup_split_middle hnd
        refine ⟨?_, ?_, ?_, ?_, ?_, ?_, ?_, ?_, ?_, ?_, ?_, ?_⟩
        · show (sidePrices (update_quantity_in_place b.bid_levels n q)).Pairwise _
          rw [sidePrices_update_quantity_in_place]
          exact hWF.bid_sorted
        · exact hWF.ask_sorted
        · exact update_quantity_in_place_wf hfl hnl (bid_serials_nodup b hWF) hWF.bid_wf
        · exact hWF.ask_wf
        · intro m hm
          have hm' : m ∈ A ++ setQty n.serial q n :: B := hAB' ▸ hm
          rcases List.mem_append.mp hm' with h | h
          · exact hWF.bid_buy m (by rw [hAB]; exact List.mem_append.mpr (Or.inl h))
          · rcases List.mem_cons.mp h with rfl | h
            · rw [setQty_is_buy]; exact hbuy
            · exact hWF.bid_buy m
                (by rw [hAB]; exact List.mem_append.mpr (Or.inr (List.mem_cons_of_mem _ h)))
        · exact hWF.ask_sell
        · show ((sideNodes (update_quantity_in_place b.bid_levels n q)
              ++ sideNodes b.ask_levels).map (fun m => m.serial)).Nodup
          rw [hAB']
          have e : ((A ++ setQty n.serial q n :: B) ++ sideNodes b.ask_levels).map
                (fun m => m.serial)
              = ((A ++ n :: B) ++ sideNodes b.ask_levels).map (fun m => m.serial) := by
            simp [setQty_serial]
          rw [e, ← hAB]
          exact hWF.serials_nodup
        · intro s hs
          show s < b.next_serial
          have hs' : s ∈ ((A ++ setQty n.serial q n :: B)
              ++ sideNodes b.ask_levels).map (fun m => m.serial) := by
            have e : sideNodes (update_quantity_in_place b.bid_levels n q)
                ++ sideNodes b.ask_levels = (A ++ setQty n.serial q n :: B)
                ++ sideNodes b.ask_levels := by rw [hAB']
            exact (by rw [← e]; exact hs)
          have e2 : ((A ++ setQty n.serial q n :: B) ++ sideNodes b.ask_levels).map
                (fun m => m.serial)
              = ((A ++ n :: B) ++ sideNodes b.ask_levels).map (fun m => m.serial) := by
            simp [setQty_serial]
          rw [e2, ← hAB] at hs'
          exact hWF.serials_lt s hs'
        · show ((b.order_lookup.map
              (fun (e : Nat × OrderNode) => (e.1, setQty n.serial q e.2))).map Prod.fst).Nodup
          rw [lookup_map_keys]
          exact hWF.keys_nodup
        · intro e he
          obtain ⟨e₀, he₀, rfl⟩ := List.mem_map.mp he
          show (setQty n.serial q e₀.2).order.order_id = e₀.1
          rw [setQty_order_id]
          exact hWF.lookup_id e₀ he₀
        · intro e he
          obtain ⟨e₀, he₀, rfl⟩ := List.mem_map.mp he
          show setQty n.serial q e₀.2 ∈ sideNodes (update_quantity_in_place b.bid_levels n q)
            ++ sideNodes b.ask_levels
          rw [hAB']
          simp only [List.mem_append, List.mem_cons]
          have hv : e₀.2 ∈ A ++ n :: (B ++ sideNodes b.ask_levels) :=
            hb ▸ hWF.lookup_mem e₀ he₀
          rcases List.mem_append.mp hv with h | h
          · rw [setQty_other q (hndA _ h)]
            tauto
          · rcases List.mem_cons.mp h with heq | h
            · rw [heq]
              simp
            · rw [setQty_other q (hndB _ h)]
              rcases List.mem_append.mp h with h | h
              · tauto
              · tauto
        · intro hvalid
          simp at hvalid
      · have hsell := hWF.ask_sell n hside
        obtain ⟨l, hfl, hnl⟩ := found_ask_level b hWF hside
        obtain ⟨A, B, hAB, hAB'⟩ :=
          update_quantity_in_place_nodes q hfl hnl (ask_serials_nodup b hWF)
        rw [amend_order_def_qty_ask b q now hfind hp hsell hfl]
        have hb : bookNodes b = (sideNodes b.bid_levels ++ A) ++ n :: B := by
          show sideNodes b.bid_levels ++ sideNodes b.ask_levels = _
          rw [hAB]; simp
        have hnd : (((sideNodes b.bid_levels ++ A) ++ n :: B).map
            (fun m => m.serial)).Nodup := by
          have h0 := hWF.serials_nodup
          unfold bookSerials at h0
          rw [hb] at h0
          exact h0
        obtain ⟨hndA, hndB⟩ := nodup_split_middle hnd
        refine ⟨?_, ?_, ?_, ?_, ?_, ?_, ?_, ?_, ?_, ?_, ?_, ?_⟩
        · exact hWF.bid_sorted
        · show (sidePrices (update_quantity_in_place b.ask_levels n q)).Pairwise _
          rw [sidePrices_update_quantity_in_place]
          exact hWF.ask_sorted
        · exact hWF.bid_wf
        · exact update_quantity_in_place_wf hfl hnl (ask_serials_nodup b hWF) hWF.ask_wf
        · exact hWF.bid_buy
        · intro m hm
          have hm' : m ∈ A ++ setQty n.serial q n :: B := hAB' ▸ hm
          rcases List.mem_append.mp hm' with h | h
          · exact hWF.ask_sell m (by rw [hAB]; exact List.mem_append.mpr (Or.inl h))
          · rcases List.mem_cons.mp h with rfl | h
            · rw [setQty_is_buy]; exact hsell
            · exact hWF.ask_sell m
                (by rw [hAB]; exact List.mem_append.mpr (Or.inr (List.mem_cons_of_mem _ h)))
        · show ((sideNodes b.bid_levels
              ++ sideNodes (update_quantity_in_place b.ask_levels n q)).map
                (fun m => m.serial)).Nodup
          rw [hAB']
          have e : (sideNodes b.bid_levels ++ (A ++ setQty n.serial q n :: B)).map
                (fun m => m.serial)
              = (sideNodes b.bid_levels ++ (A ++ n :: B)).map (fun m => m.serial) := by
            simp [setQty_serial]
          rw [e, ← hAB]
          exact hWF.serials_nodup
        · intro s hs
          show s < b.next_serial
          have hs' : s ∈ (sideNodes b.bid_levels
              ++ (A ++ setQty n.serial q n :: B)).map (fun m => m.serial) := by
            have e : sideNodes b.bid_levels
                ++ sideNodes (update_quantity_in_place b.ask_levels n q)
                = sideNodes b.bid_levels ++ (A ++ setQty n.serial q n :: B) := by rw [hAB']
            exact (by rw [← e]; exact hs)
          have e2 : (sideNodes b.bid_levels ++ (A ++ setQty n.serial q n :: B)).map
                (fun m => m.serial)
              = (sideNodes b.bid_levels ++ (A ++ n :: B)).map (fun m => m.serial) := by
            simp [setQty_serial]
          rw [e2, ← hAB] at hs'
          exact hWF.serials_lt s hs'
        · show ((b.order_lookup.map
              (fun (e : Nat × OrderNode) => (e.1, setQty n.serial q e.2))).map Prod.fst).Nodup
          rw [lookup_map_keys]
          exact hWF.keys_nodup
        · intro e he
          obtain ⟨e₀, he₀, rfl⟩ := List.mem_map.mp he
          show (setQty n.serial q e₀.2).order.order_id = e₀.1
          rw [setQty_order_id]
          exact hWF.lookup_id e₀ he₀
        · intro e he
          obtain ⟨e₀, he₀, rfl⟩ := List.mem_map.mp he
          show setQty n.serial q e₀.2 ∈ sideNodes b.bid_levels
            ++ sideNodes (update_quantity_in_place b.ask_levels n q)
          rw [hAB']
          simp only [List.mem_append, List.mem_cons]
          have hv : e₀.2 ∈ (sideNodes b.bid_levels ++ A) ++ n :: B :=
            hb ▸ hWF.lookup_mem e₀ he₀
          rcases List.mem_append.mp hv with h | h
          · rw [setQty_other q (hndA _ h)]
            rcases List.mem_append.mp h with h | h
            · tauto
            · tauto
          · rcases List.mem_cons.mp h with heq | h
            · rw [heq]
              simp
            · rw [setQty_other q (hndB _ h)]
              tauto
        · intro hvalid
          simp at hvalid

theorem wf_snapshot (b : OrderBook) (hWF : BookWF b) (depth : Nat) :
    BookWF (b.get_snapshot depth).2 := by
  obtain ⟨h1, h2, h3, h4, h5, h6, h7, h8, h9, h10, h11, h12⟩ := hWF
  exact ⟨h1, h2, h3, h4, h5, h6, h7, h8, h9, h10, h11, h12⟩

theorem wf_best (b : OrderBook) (hWF : BookWF b) :
    BookWF (b.get_best_prices).2 := by
  unfold OrderBook.get_best_prices
  by_cases hv : b.cache_valid
  · rw [if_pos hv]
    exact hWF
  · rw [if_neg hv]
    obtain ⟨h1, h2, h3, h4, h5, h6, h7, h8, h9, h10, h11, _⟩ := hWF
    exact ⟨h1, h2, h3, h4, h5, h6, h7, h8, h9, h10, h11, fun _ => ⟨rfl, rfl⟩⟩

theorem wf_empty : BookWF emptyBook := by
  refine ⟨?_, ?_, ?_, ?_, ?_, ?_, ?_, ?_, ?_, ?_, ?_, ?_⟩ <;>
    simp [emptyBook, bookNodes, sideNodes, bookSerials, sidePrices]

theorem wf_step (b : OrderBook) (hWF : BookWF b) (op : Op) : BookWF (step b op) := by
  cases op with
  | add o => exact wf_add b hWF o
  | cancel id => exact wf_cancel b hWF id
  | amend id p q now => exact wf_amend b hWF id p q now
  | snapshot d => exact wf_snapshot b hWF d
  | best => exact wf_best b hWF

theorem wf_run (b : OrderBook) (hWF : BookWF b) (ops : List Op) : BookWF (run b ops) := by
  induction ops generalizing b with
  | nil => exact hWF
  | cons op ops ih => exact ih _ (wf_step b hWF op)

/-! ### Decidability of the observation predicates (used by witnesses) -/

instance (b : OrderBook) (s : Nat) : Decidable (rests b s) :=
  inferInstanceAs (Decidable (∃ m ∈ bookNodes b, m.serial = s))

instance (b : OrderBook) (s₁ s₂ : Nat) : Decidable (precedes b s₁ s₂) :=
  inferInstanceAs (Decidable (∃ l ∈ b.bid_levels ++ b.ask_levels,
    [s₁, s₂].Sublist (l.orders.map (fun n : OrderNode => n.serial))))

instance (b : OrderBook) : Decidable (noOrphans b) :=
  inferInstanceAs (Decidable (∀ m ∈ bookNodes b,
    lookupFind b.order_lookup m.order.order_id = some m))

/-! ### The claims -/

/-- Per-level consistency of every level reachable from the Ladder:
non-empty FIFO, `total_quantity` is the FIFO's quantity sum, and
`order_count` is the FIFO's length. -/
def LevelsOK (b : OrderBook) : Prop :=
  ∀ l ∈ b.bid_levels ++ b.ask_levels,
    l.orders ≠ [] ∧ l.total_quantity = qsum l.orders ∧ l.order_count = l.orders.length

/-- C7: after every sequence of public operations run from the fresh
book (hence after every public operation), every Level reachable from
either side of the Ladder has a non-empty FIFO, a `total_quantity` equal
to the sum of its FIFO's quantities, and an `order_count` equal to its
FIFO's length; a Level whose FIFO empties is removed (no empty Level is
ever reachable). -/
theorem C7_levels_invariant (ops : List Op) : LevelsOK (run emptyBook ops) := by
  have hWF := wf_run emptyBook wf_empty ops
  intro l hl
  rcases List.mem_append.mp hl with h | h
  · obtain ⟨h1, h2, h3, _⟩ := hWF.bid_wf l h
    exact ⟨h1, h2, h3⟩
  · obtain ⟨h1, h2, h3, _⟩ := hWF.ask_wf l h
    exact ⟨h1, h2, h3⟩

/-- C1 (code-bug evaluation): `add_order` does not reject a duplicate
`order_id`.  Adding the same order twice leaves the Index with one entry
but inserts a second node into the ladder: `total_orders` becomes 2, the
level at price 100 aggregates both quantities, and the book state
changes, contradicting "fail without side effects". -/
theorem C1_duplicate_add_mutates :
    ((emptyBook.add_order ⟨1, true, 100, 10, 0⟩).add_order
        ⟨1, true, 100, 10, 0⟩).total_orders = 2 ∧
    ((emptyBook.add_order ⟨1, true, 100, 10, 0⟩).add_order
        ⟨1, true, 100, 10, 0⟩).order_lookup.length = 1 ∧
    (findLevel 100 ((emptyBook.add_order ⟨1, true, 100, 10, 0⟩).add_order
        ⟨1, true, 100, 10, 0⟩).bid_levels).map (fun l => l.total_quantity) = some 20 ∧
    ((emptyBook.add_order ⟨1, true, 100, 10, 0⟩).add_order ⟨1, true, 100, 10, 0⟩)
      ≠ emptyBook.add_order ⟨1, true, 100, 10, 0⟩ := by
  decide

/-- C2 (code-bug evaluation): `amend_order` with `new_quantity = 0` does
not reject: on a resting order of quantity 10 at price 100 it returns
`true` and zeroes the order in place, so the level keeps one resting
order of quantity 0 and `total_quantity` 0, contradicting "return false,
no mutation". -/
theorem C2_amend_zero_quantity_accepted :
    ((emptyBook.add_order ⟨1, true, 100, 10, 0⟩).amend_order 1 100 0 5).1 = true ∧
    (findLevel 100 ((emptyBook.add_order ⟨1, true, 100, 10, 0⟩).amend_order
        1 100 0 5).2.bid_levels).map (fun l => l.total_quantity) = some 0 ∧
    (findLevel 100 ((emptyBook.add_order ⟨1, true, 100, 10, 0⟩).amend_order
        1 100 0 5).2.bid_levels).map (fun l => l.orders.map (fun m => m.order.quantity))
      = some [0] ∧
    ((emptyBook.add_order ⟨1, true, 100, 10, 0⟩).amend_order 1 100 0 5).2
      ≠ emptyBook.add_order ⟨1, true, 100, 10, 0⟩ := by
  have hfind : lookupFind (emptyBook.add_order ⟨1, true, 100, 10, 0⟩).order_lookup 1
      = some ⟨⟨1, true, 100, 10, 0⟩, 0⟩ := by decide
  have hp : ¬ eps < ratAbs ((⟨⟨1, true, 100, 10, 0⟩, 0⟩ : OrderNode).order.price - 100) := by
    show ¬ eps < ratAbs ((100 : ℚ) - 100)
    norm_num [ratAbs, eps]
  have hfl : findLevel (⟨⟨1, true, 100, 10, 0⟩, 0⟩ : OrderNode).order.price
      (emptyBook.add_order ⟨1, true, 100, 10, 0⟩).bid_levels
      = some ((Level.init 100).add_order ⟨⟨1, true, 100, 10, 0⟩, 0⟩) := by decide
  rw [amend_order_def_qty_bid (emptyBook.add_order ⟨1, true, 100, 10, 0⟩) 0 5 hfind hp rfl hfl]
  refine ⟨rfl, ?_, ?_, ?_⟩ <;> decide

/-- C10: a price-changing amend of a resting order increments
`total_orders` and `total_cancels` (through its internal cancel and add
legs) as well as `total_amends`, while a quantity-only amend increments
only `total_amends`. -/
theorem C10_amend_counters (b : OrderBook) (id : Nat) (p : ℚ) (q now : Nat)
    (n : OrderNode) (hfind : lookupFind b.order_lookup id = some n) :
    (eps < |n.order.price - p| →
      (b.amend_order id p q now).2.total_orders = b.total_orders + 1 ∧
      (b.amend_order id p q now).2.total_cancels = b.total_cancels + 1 ∧
      (b.amend_order id p q now).2.total_amends = b.total_amends + 1) ∧
    (¬ eps < |n.order.price - p| →
      (b.amend_order id p q now).2.total_orders = b.total_orders ∧
      (b.amend_order id p q now).2.total_cancels = b.total_cancels ∧
      (b.amend_order id p q now).2.total_amends = b.total_amends + 1) := by
  constructor
  · intro hp
    have hp' : eps < ratAbs (n.order.price - p) := by
      rw [ratAbs_eq_abs]; exact hp
    rw [amend_order_def_price b q now hfind hp']
    have hc := cancel_order_def_found { b with cache_valid := false } (n := n) hfind
    refine ⟨?_, ?_, ?_⟩ <;> simp [add_order_def, hc]
  · intro hp
    have hp' : ¬ eps < ratAbs (n.order.price - p) := by
      rw [ratAbs_eq_abs]; exact hp
    simp only [OrderBook.amend_order, hfind]
    rw [if_neg hp']
    by_cases hb : n.order.is_buy
    · simp only [hb, if_true]
      cases hfl : findLevel n.order.price b.bid_levels <;> simp [hfl]
    · simp only [hb, if_false]
      cases hfl : findLevel n.order.price b.ask_levels <;> simp [hfl]

/-- C10 witness: on a one-order book, amending order 1 from price 100 to
price 200 bumps the adds counter through the internal add leg. -/
theorem C10_witness :
    ((emptyBook.add_order ⟨1, true, 100, 10, 0⟩).amend_order 1 200 5 9).2.total_orders
      = (emptyBook.add_order ⟨1, true, 100, 10, 0⟩).total_orders + 1 :=
  ((C10_amend_counters (emptyBook.add_order ⟨1, true, 100, 10, 0⟩) 1 200 5 9
      ⟨⟨1, true, 100, 10, 0⟩, 0⟩ (by decide)).1 (by norm_num [eps])).1

theorem get_best_prices_calc (b : OrderBook) (hWF : BookWF b) :
    (b.get_best_prices).1 = (bestBidCalc b, bestAskCalc b) := by
  unfold OrderBook.get_best_prices
  by_cases hv : b.cache_valid
  · rw [if_pos hv]
    obtain ⟨h1, h2⟩ := hWF.cache_ok hv
    simp [h1, h2]
  · rw [if_neg hv]
    rfl

/-- C9: `get_best_prices` returns the highest resting bid price and the
lowest resting ask price; an empty bid side yields the sentinel 0 and an
empty ask side the maximum representable price `dblMax` (so the empty
book yields (0, dblMax)). -/
theorem C9_best_prices (b : OrderBook) (hWF : BookWF b) :
    (b.bid_levels = [] → (b.get_best_prices).1.1 = 0) ∧
    (b.ask_levels = [] → (b.get_best_prices).1.2 = dblMax) ∧
    (∀ l ∈ b.bid_levels, l.price ≤ (b.get_best_prices).1.1) ∧
    (b.bid_levels ≠ [] → ∃ l ∈ b.bid_levels, (b.get_best_prices).1.1 = l.price) ∧
    (∀ l ∈ b.ask_levels, (b.get_best_prices).1.2 ≤ l.price) ∧
    (b.ask_levels ≠ [] → ∃ l ∈ b.ask_levels, (b.get_best_prices).1.2 = l.price) := by
  have hc := get_best_prices_calc b hWF
  have hbb : (b.get_best_prices).1.1 = bestBidCalc b := by rw [hc]
  have hba : (b.get_best_prices).1.2 = bestAskCalc b := by rw [hc]
  rw [hbb, hba]
  refine ⟨?_, ?_, ?_, ?_, ?_, ?_⟩
  · intro h
    simp [bestBidCalc, h]
  · intro h
    simp [bestAskCalc, h]
  · intro l hl
    cases hb : b.bid_levels with
    | nil => rw [hb] at hl; simp at hl
    | cons x xs =>
      rw [hb] at hl
      have hs := hWF.bid_sorted
      rw [hb] at hs
      simp only [sidePrices, List.map_cons, List.pairwise_cons] at hs
      simp only [bestBidCalc, hb]
      rcases List.mem_cons.mp hl with rfl | hl
      · exact le_refl _
      · exact le_of_lt (hs.1 l.price (List.mem_map.mpr ⟨l, hl, rfl⟩))
  · intro h
    cases hb : b.bid_levels with
    | nil => exact absurd hb h
    | cons x xs => exact ⟨x, by simp, by simp [bestBidCalc, hb]⟩
  · intro l hl
    cases hb : b.ask_levels with
    | nil => rw [hb] at hl; simp at hl
    | cons x xs =>
      rw [hb] at hl
      have hs := hWF.ask_sorted
      rw [hb] at hs
      simp only [sidePrices, List.map_cons, List.pairwise_cons] at hs
      simp only [bestAskCalc, hb]
      rcases List.mem_cons.mp hl with rfl | hl
      · exact le_refl _
      · exact le_of_lt (hs.1 l.price (List.mem_map.mpr ⟨l, hl, rfl⟩))
  · intro h
    cases hb : b.ask_levels with
    | nil => exact absurd hb h
    | cons x xs => exact ⟨x, by simp, by simp [bestAskCalc, hb]⟩

/-- C9 witness: on the empty book both sentinels are returned. -/
theorem C9_witness :
    (emptyBook.get_best_prices).1.1 = 0 ∧ (emptyBook.get_best_prices).1.2 = dblMax :=
  ⟨(C9_best_prices emptyBook wf_empty).1 rfl,
   (C9_best_prices emptyBook wf_empty).2.1 rfl⟩

/-- C8: `get_snapshot` fills the bid output with the first
min(depth, number of bid levels) aggregated `PriceLevel` entries in
strictly decreasing price order, the ask output with the first
min(depth, number of ask levels) entries in strictly increasing price
order (fresh outputs, no padding when `depth` exceeds the level count),
and does not mutate the Ladder, the Levels, or the Index. -/
theorem C8_get_snapshot (b : OrderBook) (hWF : BookWF b) (depth : Nat) :
    (b.get_snapshot depth).1.1.length = min depth b.bid_levels.length ∧
    (b.get_snapshot depth).1.2.length = min depth b.ask_levels.length ∧
    (b.get_snapshot depth).1.1
      = (b.bid_levels.take depth).map (fun l => ⟨l.price, l.total_quantity⟩) ∧
    (b.get_snapshot depth).1.2
      = (b.ask_levels.take depth).map (fun l => ⟨l.price, l.total_quantity⟩) ∧
    ((b.get_snapshot depth).1.1.map (fun pl => pl.price)).Pairwise (fun a c => c < a) ∧
    ((b.get_snapshot depth).1.2.map (fun pl => pl.price)).Pairwise (fun a c => a < c) ∧
    (b.get_snapshot depth).2.bid_levels = b.bid_levels ∧
    (b.get_snapshot depth).2.ask_levels = b.ask_levels ∧
    (b.get_snapshot depth).2.order_lookup = b.order_lookup := by
  refine ⟨?_, ?_, rfl, rfl, ?_, ?_, rfl, rfl, rfl⟩
  · show ((b.bid_levels.take depth).map
        (fun l => (⟨l.price, l.total_quantity⟩ : PriceLevel))).length = _
    rw [List.length_map, List.length_take]
  · show ((b.ask_levels.take depth).map
        (fun l => (⟨l.price, l.total_quantity⟩ : PriceLevel))).length = _
    rw [List.length_map, List.length_take]
  · show (((b.bid_levels.take depth).map
        (fun l => (⟨l.price, l.total_quantity⟩ : PriceLevel))).map
          (fun pl => pl.price)).Pairwise _
    rw [List.map_map]
    refine List.Pairwise.sublist ?_ hWF.bid_sorted
    exact (List.take_sublist _ _).map _
  · show (((b.ask_levels.take depth).map
        (fun l => (⟨l.price, l.total_quantity⟩ : PriceLevel))).map
          (fun pl => pl.price)).Pairwise _
    rw [List.map_map]
    refine List.Pairwise.sublist ?_ hWF.ask_sorted
    exact (List.take_sublist _ _).map _

/-- C8 witness: snapshot of a one-order book at depth 5 has one bid
entry. -/
theorem C8_witness :
    ((emptyBook.add_order ⟨1, true, 100, 10, 0⟩).get_snapshot 5).1.1.length
      = min 5 (emptyBook.add_order ⟨1, true, 100, 10, 0⟩).bid_levels.length :=
  (C8_get_snapshot (emptyBook.add_order ⟨1, true, 100, 10, 0⟩)
    (wf_add emptyBook wf_empty _) 5).1

theorem add_to_side_tail (c : ℚ → ℚ → Bool) (side : List Level) (n : OrderNode) :
    ∃ l ∈ add_to_side c side n, l.price = n.order.price ∧ l.orders.getLast? = some n := by
  unfold add_to_side
  cases hfind : findLevel n.order.price side with
  | some l₀ =>
    obtain ⟨pre, post, hs, hpre, hupd⟩ := updateLevelAt_split hfind
    rw [hupd _]
    refine ⟨l₀.add_order n, List.mem_append.mpr (Or.inr (List.mem_cons_self _ _)), ?_, ?_⟩
    · show l₀.price = n.order.price
      exact findLevel_price hfind
    · show (l₀.orders ++ [n]).getLast? = some n
      simp
  | none =>
    refine ⟨(Level.init n.order.price).add_order n,
      mem_insertSorted.mpr (Or.inl rfl), rfl, ?_⟩
    show (([] : List OrderNode) ++ [n]).getLast? = some n
    simp

theorem add_order_tail (b : OrderBook) (o : Order) :
    ∃ l ∈ (if o.is_buy then (b.add_order o).bid_levels else (b.add_order o).ask_levels),
      l.price = o.price ∧ l.orders.getLast? = some ⟨o, b.next_serial⟩ := by
  by_cases hb : o.is_buy
  · rw [if_pos hb]
    have e : (b.add_order o).bid_levels
        = add_to_side bidCmp b.bid_levels ⟨o, b.next_serial⟩ := by
      rw [add_order_def]; simp [hb]
    rw [e]
    exact add_to_side_tail bidCmp b.bid_levels ⟨o, b.next_serial⟩
  · rw [if_neg hb]
    have e : (b.add_order o).ask_levels
        = add_to_side askCmp b.ask_levels ⟨o, b.next_serial⟩ := by
      rw [add_order_def]; simp [hb]
    rw [e]
    exact add_to_side_tail askCmp b.ask_levels ⟨o, b.next_serial⟩

/-- C5: a price-changing amend (|Δprice| > 1e-9) produces exactly the
ladder and Index state of `cancel(id)` followed by `add(o')` where `o'`
keeps the order's id and side and carries the new price, the new
quantity and the fresh timestamp; the amended order sits at the tail of
the FIFO of the level at the new price. -/
theorem C5_amend_price_change (b : OrderBook) (id : Nat) (p : ℚ) (q now : Nat)
    (n : OrderNode) (hfind : lookupFind b.order_lookup id = some n)
    (hp : eps < |n.order.price - p|) :
    (b.amend_order id p q now).1 = true ∧
    (b.amend_order id p q now).2.bid_levels
      = ((b.cancel_order id).2.add_order
          { n.order with price := p, quantity := q, timestamp_ns := now }).bid_levels ∧
    (b.amend_order id p q now).2.ask_levels
      = ((b.cancel_order id).2.add_order
          { n.order with price := p, quantity := q, timestamp_ns := now }).ask_levels ∧
    (b.amend_order id p q now).2.order_lookup
      = ((b.cancel_order id).2.add_order
          { n.order with price := p, quantity := q, timestamp_ns := now }).order_lookup ∧
    (∃ l ∈ (if n.order.is_buy then (b.amend_order id p q now).2.bid_levels
        else (b.amend_order id p q now).2.ask_levels),
      l.price = p ∧ l.orders.getLast?
        = some ⟨{ n.order with price := p, quantity := q, timestamp_ns := now },
                b.next_serial⟩) := by
  have hp' : eps < ratAbs (n.order.price - p) := by rw [ratAbs_eq_abs]; exact hp
  have hcc : ({ b with cache_valid := false }.cancel_order id).2
      = (b.cancel_order id).2 := by
    rw [cancel_order_def_found { b with cache_valid := false } (n := n) hfind,
        cancel_order_def_found b hfind]
  rw [amend_order_def_price b q now hfind hp', hcc]
  have hnext : ((b.cancel_order id).2).next_serial = b.next_serial := by
    rw [cancel_order_def_found b hfind]
  have ht := add_order_tail (b.cancel_order id).2
    { n.order with price := p, quantity := q, timestamp_ns := now }
  rw [hnext] at ht
  exact ⟨rfl, rfl, rfl, rfl, ht⟩

/-- C5 witness: a concrete price-changing amend on a one-order book. -/
theorem C5_witness :
    ((emptyBook.add_order ⟨1, true, 100, 10, 0⟩).amend_order 1 99 10 7).1 = true :=
  (C5_amend_price_change (emptyBook.add_order ⟨1, true, 100, 10, 0⟩) 1 99 10 7
    ⟨⟨1, true, 100, 10, 0⟩, 0⟩ (by decide) (by norm_num [eps])).1

theorem findLevel_append_first {p : ℚ} {pre post : List Level} {x : Level}
    (hpre : ∀ y ∈ pre, y.price ≠ p) (hx : x.price = p) :
    findLevel p (pre ++ x :: post) = some x := by
  induction pre with
  | nil => simp [findLevel, List.find?_cons, hx]
  | cons a t ih =>
    have ha : a.price ≠ p := hpre a (by simp)
    have ih' := ih (fun y hy => hpre y (by simp [hy]))
    simpa [findLevel, List.find?_cons, ha] using ih'

theorem remove_from_side_collapse {P : ℚ → ℚ → Prop} (hirr : ∀ a : ℚ, ¬ P a a)
    {side : List Level} {n : OrderNode} {l₀ : Level}
    (hpw : (sidePrices side).Pairwise P)
    (hfind : findLevel n.order.price side = some l₀) (hnl : n ∈ l₀.orders)
    (hnodup : ((sideNodes side).map (fun m => m.serial)).Nodup) :
    (findLevel n.order.price (remove_from_side side n) = none ↔ l₀.orders.length = 1) := by
  obtain ⟨pre, post, hs, hpre, hrem⟩ := remove_from_side_split hfind
  have hlnodup : (l₀.orders.map (fun m => m.serial)).Nodup :=
    ((orders_sublist_sideNodes (findLevel_mem hfind)).map _).nodup hnodup
  obtain ⟨xs, ys, hsplit, hxs, hys, herase⟩ := eraseP_serial_split hnl hlnodup
  have hlp : l₀.price = n.order.price := findLevel_price hfind
  have horders : (l₀.remove_order n).orders = xs ++ ys := by
    simpa [Level.remove_order] using herase
  have hppost : ∀ y ∈ post, y.price ≠ n.order.price := by
    have hnd : (sidePrices side).Nodup := by
      refine List.Pairwise.imp ?_ hpw
      intro a b hab heq
      exact hirr b (heq ▸ hab)
    rw [hs] at hnd
    have e : sidePrices (pre ++ l₀ :: post)
        = sidePrices pre ++ l₀.price :: sidePrices post := by
      simp [sidePrices]
    rw [e] at hnd
    intro y hy heq
    have h2 : (l₀.price :: sidePrices post).Nodup := (List.nodup_append.mp hnd).2.1
    have h3 : l₀.price ∉ sidePrices post := (List.nodup_cons.mp h2).1
    exact h3 (List.mem_map.mpr ⟨y, hy, (heq.trans hlp.symm)⟩)
  constructor
  · intro hnone
    by_cases hemp : (l₀.remove_order n).is_empty = true
    · have hxy : xs ++ ys = [] := by
        simpa [Level.is_empty, horders] using hemp
      have hx0 : xs = [] := by
        cases xs with
        | nil => rfl
        | cons u v => simp at hxy
      have hy0 : ys = [] := by
        rw [hx0] at hxy
        simpa using hxy
      rw [hsplit, hx0, hy0]
      simp
    · exfalso
      rw [hrem, if_neg hemp] at hnone
      have hfound : findLevel n.order.price (pre ++ l₀.remove_order n :: post)
          = some (l₀.remove_order n) :=
        findLevel_append_first hpre (by simpa [Level.remove_order] using hlp)
      rw [hfound] at hnone
      exact Option.noConfusion hnone
  · intro hone
    have hxy : xs = [] ∧ ys = [] := by
      rw [hsplit] at hone
      simp only [List.length_append, List.length_cons] at hone
      constructor
      · exact List.length_eq_zero.mp (by omega)
      · exact List.length_eq_zero.mp (by omega)
    have hemp : (l₀.remove_order n).is_empty = true := by
      simp [Level.is_empty, horders, hxy.1, hxy.2]
    rw [hrem, if_pos hemp]
    unfold findLevel
    refine List.find?_eq_none.mpr ?_
    intro x hx
    rcases List.mem_append.mp hx with h | h
    · simpa using hpre x h
    · simpa using hppost x h

/-- C3: `cancel_order` returns true exactly when an order with the given
id rests in the book; on success the order's node leaves its Level and
the Index (the Level itself disappearing from the Ladder exactly when
the cancelled order was its only resting order, every other node
surviving), and an unknown id is a no-op returning false. -/
theorem C3_cancel_order (b : OrderBook) (hWF : BookWF b) (hNO : noOrphans b) (id : Nat) :
    ((b.cancel_order id).1 = true ↔ ∃ m ∈ bookNodes b, m.order.order_id = id) ∧
    (lookupFind b.order_lookup id = none → (b.cancel_order id).2 = b) ∧
    (∀ n, lookupFind b.order_lookup id = some n →
      lookupFind (b.cancel_order id).2.order_lookup id = none ∧
      (∀ m ∈ bookNodes (b.cancel_order id).2, m.order.order_id ≠ id) ∧
      (∀ m ∈ bookNodes (b.cancel_order id).2, m.serial ≠ n.serial) ∧
      (∀ m ∈ bookNodes b, m.serial ≠ n.serial → m ∈ bookNodes (b.cancel_order id).2) ∧
      (∀ l₀, findLevel n.order.price
            (if n.order.is_buy then b.bid_levels else b.ask_levels) = some l₀ →
          (findLevel n.order.price
              (if n.order.is_buy then (b.cancel_order id).2.bid_levels
               else (b.cancel_order id).2.ask_levels) = none
            ↔ l₀.orders.length = 1))) := by
  refine ⟨?_, ?_, ?_⟩
  · constructor
    · intro h
      cases hfind : lookupFind b.order_lookup id with
      | none =>
        rw [cancel_order_def_none b hfind] at h
        simp at h
      | some n => exact ⟨n, found_mem b hWF hfind, found_id b hWF hfind⟩
    · rintro ⟨m, hm, hmid⟩
      have hfound := hNO m hm
      rw [hmid] at hfound
      rw [cancel_order_def_found b hfound]
  · intro h
    rw [cancel_order_def_none b h]
  · intro n hfind
    obtain ⟨A, B, hAB, hAB'⟩ := cancel_nodes_split b hWF hfind
    have hnd : ((A ++ n :: B).map (fun m => m.serial)).Nodup := by
      have h0 := hWF.serials_nodup
      unfold bookSerials at h0
      rw [hAB] at h0
      exact h0
    obtain ⟨hndA, hndB⟩ := nodup_split_middle hnd
    have hlk : (b.cancel_order id).2.order_lookup = lookupErase b.order_lookup id := by
      rw [cancel_order_def_found b hfind]
    obtain ⟨E₁, E₂, hE, hE₁, hE₂, hEr⟩ := lookupErase_split hfind hWF.keys_nodup
    refine ⟨?_, ?_, ?_, ?_, ?_⟩
    · have hfe : (lookupErase b.order_lookup id).find? (fun e => decide (e.1 = id))
          = none := by
        rw [hEr]
        refine List.find?_eq_none.mpr ?_
        intro x hx
        rcases List.mem_append.mp hx with h | h
        · simpa using hE₁ x h
        · simpa using hE₂ x h
      show lookupFind _ id = none
      rw [hlk]
      unfold lookupFind
      rw [hfe]
      rfl
    · intro m hm hmid
      have hm' : m ∈ A ++ B := hAB' ▸ hm
      have hmb : m ∈ bookNodes b := by
        rw [hAB]
        rcases List.mem_append.mp hm' with h | h
        · exact List.mem_append.mpr (Or.inl h)
        · exact List.mem_append.mpr (Or.inr (List.mem_cons_of_mem _ h))
      have hno := hNO m hmb
      rw [hmid, hfind] at hno
      have hmn : n = m := by simpa using hno
      rcases List.mem_append.mp hm' with h | h
      · exact hndA m h (by rw [← hmn])
      · exact hndB m h (by rw [← hmn])
    · intro m hm
      have hm' : m ∈ A ++ B := hAB' ▸ hm
      rcases List.mem_append.mp hm' with h | h
      · exact hndA m h
      · exact hndB m h
    · intro m hm hser
      have hm' : m ∈ A ++ n :: B := hAB ▸ hm
      rw [hAB']
      rcases List.mem_append.mp hm' with h | h
      · exact List.mem_append.mpr (Or.inl h)
      · rcases List.mem_cons.mp h with heq | h
        · exact absurd (by rw [heq]) hser
        · exact List.mem_append.mpr (Or.inr h)
    · intro l₀ hl₀
      have hnmem : n ∈ sideNodes b.bid_levels ++ sideNodes b.ask_levels :=
        found_mem b hWF hfind
      rcases List.mem_append.mp hnmem with hside | hside
      · have hbuy := hWF.bid_buy n hside
        rw [if_pos hbuy] at hl₀
        obtain ⟨l, hfl, hnl⟩ := found_bid_level b hWF hside
        have hll : l₀ = l := by
          rw [hfl] at hl₀
          exact ((Option.some.injEq _ _).mp hl₀).symm
        subst hll
        have e : (b.cancel_order id).2.bid_levels = remove_from_side b.bid_levels n := by
          rw [cancel_order_def_found b hfind]; simp [hbuy]
        rw [if_pos hbuy, e]
        exact remove_from_side_collapse (P := fun a c => c < a) (fun a => lt_irrefl a)
          hWF.bid_sorted hfl hnl (bid_serials_nodup b hWF)
      · have hsell := hWF.ask_sell n hside
        rw [if_neg (by simp [hsell])] at hl₀
        obtain ⟨l, hfl, hnl⟩ := found_ask_level b hWF hside
        have hll : l₀ = l := by
          rw [hfl] at hl₀
          exact ((Option.some.injEq _ _).mp hl₀).symm
        subst hll
        have e : (b.cancel_order id).2.ask_levels = remove_from_side b.ask_levels n := by
          rw [cancel_order_def_found b hfind]; simp [hsell]
        rw [if_neg (by simp [hsell]), e]
        exact remove_from_side_collapse (P := fun a c => a < c) (fun a => lt_irrefl a)
          hWF.ask_sorted hfl hnl (ask_serials_nodup b hWF)

/-- C3 witness: cancelling the only resting order returns true, and
cancelling an unknown id on the empty book is a no-op returning false. -/
theorem C3_witness :
    ((emptyBook.add_order ⟨1, true, 100, 10, 0⟩).cancel_order 1).1 = true ∧
    (emptyBook.cancel_order 9).2 = emptyBook :=
  ⟨(C3_cancel_order (emptyBook.add_order ⟨1, true, 100, 10, 0⟩)
      (wf_add emptyBook wf_empty _) (by decide) 1).1.mpr
      ⟨⟨⟨1, true, 100, 10, 0⟩, 0⟩, by decide, rfl⟩,
   (C3_cancel_order emptyBook wf_empty (by decide) 9).2.1 (by decide)⟩

theorem findLevel_updateLevelAt_other {p r : ℚ} (hne : r ≠ p) (f : Level → Level)
    (hf : ∀ l, (f l).price = l.price) (side : List Level) :
    findLevel r (updateLevelAt p f side) = findLevel r side := by
  induction side with
  | nil => rfl
  | cons x xs ih =>
    have h3 : ¬ p = r := fun h => hne h.symm
    by_cases hx : x.price = p
    · have h1 : ¬ (f x).price = r := by
        rw [hf x, hx]
        exact fun h => hne h.symm
      have h2 : ¬ x.price = r := by
        rw [hx]
        exact fun h => hne h.symm
      simp [updateLevelAt, hx, findLevel, List.find?_cons, h1, h2, h3, hne]
    · by_cases hxr : x.price = r
      · simp [updateLevelAt, hx, findLevel, List.find?_cons, hxr, h3, hne]
      · simp only [updateLevelAt, hx, if_false]
        simpa [findLevel, List.find?_cons, hxr] using ih

theorem lookupFind_map_setQty (m : List (Nat × OrderNode)) (s q id : Nat) :
    lookupFind (m.map (fun (e : Nat × OrderNode) => (e.1, setQty s q e.2))) id
      = (lookupFind m id).map (setQty s q) := by
  induction m with
  | nil => rfl
  | cons a t ih =>
    by_cases ha : a.1 = id
    · simp [lookupFind, List.find?_cons, ha]
    · simpa [lookupFind, List.find?_cons, ha] using ih

theorem le_qsum_of_mem {n : OrderNode} {ns : List OrderNode} (h : n ∈ ns) :
    n.order.quantity ≤ qsum ns := by
  induction ns with
  | nil => simp at h
  | cons a t ih =>
    rw [qsum_cons]
    rcases List.mem_cons.mp h with rfl | h
    · omega
    · have := ih h
      omega

/-- C4: amending a resting order with an unchanged price (|Δprice| ≤
1e-9) and a positive quantity returns true, replaces the node's quantity
in place, adjusts its Level's `total_quantity` by the signed delta, and
preserves the FIFO positions (serial sequence) of that Level; every
other Level, the other side, and all other Index entries are untouched,
while the order's Index entry shows the new quantity. -/
theorem C4_amend_quantity_only (b : OrderBook) (hWF : BookWF b) (id : Nat) (p : ℚ)
    (q now : Nat) (n : OrderNode) (hfind : lookupFind b.order_lookup id = some n)
    (hp : |p - n.order.price| ≤ eps) (hq : 0 < q) :
    (b.amend_order id p q now).1 = true ∧
    (∃ l l',
      findLevel n.order.price (if n.order.is_buy then b.bid_levels else b.ask_levels)
        = some l ∧
      findLevel n.order.price
        (if n.order.is_buy then (b.amend_order id p q now).2.bid_levels
         else (b.amend_order id p q now).2.ask_levels) = some l' ∧
      l'.price = l.price ∧
      l'.orders = l.orders.map (setQty n.serial q) ∧
      l'.orders.map (fun m => m.serial) = l.orders.map (fun m => m.serial) ∧
      (l'.total_quantity : ℤ)
        = (l.total_quantity : ℤ) + ((q : ℤ) - (n.order.quantity : ℤ)) ∧
      l'.order_count = l.order_count) ∧
    (∀ r, r ≠ n.order.price →
      findLevel r (b.amend_order id p q now).2.bid_levels = findLevel r b.bid_levels ∧
      findLevel r (b.amend_order id p q now).2.ask_levels = findLevel r b.ask_levels) ∧
    (if n.order.is_buy then (b.amend_order id p q now).2.ask_levels = b.ask_levels
     else (b.amend_order id p q now).2.bid_levels = b.bid_levels) ∧
    lookupFind (b.amend_order id p q now).2.order_lookup id
      = some (setQty n.serial q n) ∧
    (∀ j, j ≠ id →
      lookupFind (b.amend_order id p q now).2.order_lookup j
        = lookupFind b.order_lookup j) := by
  have hp' : ¬ eps < ratAbs (n.order.price - p) := by
    rw [ratAbs_eq_abs, abs_sub_comm]
    exact not_lt.mpr hp
  have hother : ∀ j, j ≠ id →
      lookupFind (b.order_lookup.map
        (fun (e : Nat × OrderNode) => (e.1, setQty n.serial q e.2))) j
        = lookupFind b.order_lookup j := by
    intro j hj
    rw [lookupFind_map_setQty]
    cases hfj : lookupFind b.order_lookup j with
    | none => rfl
    | some v =>
      have hvid : v.order.order_id = j := found_id b hWF hfj
      have hnid : n.order.order_id = id := found_id b hWF hfind
      have hvmem : v ∈ bookNodes b := found_mem b hWF hfj
      have hnmem' : n ∈ bookNodes b := found_mem b hWF hfind
      have hvn : v ≠ n := fun h => hj (by rw [← hvid, h, hnid])
      have hser : v.serial ≠ n.serial := fun h =>
        hvn (List.inj_on_of_nodup_map hWF.serials_nodup hvmem hnmem' h)
      simp [setQty_other q hser]
  have hnmem : n ∈ sideNodes b.bid_levels ++ sideNodes b.ask_levels := found_mem b hWF hfind
  rcases List.mem_append.mp hnmem with hside | hside
  · have hbuy := hWF.bid_buy n hside
    obtain ⟨l, hfl, hnl⟩ := found_bid_level b hWF hside
    rw [amend_order_def_qty_bid b q now hfind hp' hbuy hfl]
    obtain ⟨pre, post, hs, hpre, hupd⟩ := updateLevelAt_split hfl
    have hlwf := hWF.bid_wf l (findLevel_mem hfl)
    have hnle : n.order.quantity ≤ l.total_quantity := by
      rw [hlwf.2.1]
      exact le_qsum_of_mem hnl
    refine ⟨rfl, ?_, ?_, ?_, ?_, ?_⟩
    · refine ⟨l, l.update_quantity n q, ?_, ?_, rfl, rfl, ?_, ?_, rfl⟩
      · rw [if_pos hbuy]
        exact hfl
      · rw [if_pos hbuy]
        show findLevel n.order.price (update_quantity_in_place b.bid_levels n q) = _
        unfold update_quantity_in_place
        rw [hupd _]
        have hlp : l.price = n.order.price := findLevel_price hfl
        exact findLevel_append_first hpre hlp
      · show (l.orders.map (setQty n.serial q)).map (fun m => m.serial)
          = l.orders.map (fun m => m.serial)
        rw [List.map_map]
        exact List.map_congr_left (fun m _ => setQty_serial _ _ _)
      · show ((l.total_quantity - n.order.quantity + q : ℕ) : ℤ) = _
        omega
    · intro r hr
      refine ⟨?_, rfl⟩
      show findLevel r (update_quantity_in_place b.bid_levels n q) = _
      unfold update_quantity_in_place
      exact findLevel_updateLevelAt_other hr (fun l => l.update_quantity n q)
        (fun l => rfl) b.bid_levels
    · rw [if_pos hbuy]
    · show lookupFind (b.order_lookup.map
          (fun (e : Nat × OrderNode) => (e.1, setQty n.serial q e.2))) id
          = some (setQty n.serial q n)
      rw [lookupFind_map_setQty, hfind]
      rfl
    · exact hother
  · have hsell := hWF.ask_sell n hside
    obtain ⟨l, hfl, hnl⟩ := found_ask_level b hWF hside
    rw [amend_order_def_qty_ask b q now hfind hp' hsell hfl]
    obtain ⟨pre, post, hs, hpre, hupd⟩ := updateLevelAt_split hfl
    have hlwf := hWF.ask_wf l (findLevel_mem hfl)
    have hnle : n.order.quantity ≤ l.total_quantity := by
      rw [hlwf.2.1]
      exact le_qsum_of_mem hnl
    refine ⟨rfl, ?_, ?_, ?_, ?_, ?_⟩
    · refine ⟨l, l.update_quantity n q, ?_, ?_, rfl, rfl, ?_, ?_, rfl⟩
      · rw [if_neg (by simp [hsell])]
        exact hfl
      · rw [if_neg (by simp [hsell])]
        show findLevel n.order.price (update_quantity_in_place b.ask_levels n q) = _
        unfold update_quantity_in_place
        rw [hupd _]
        have hlp : l.price = n.order.price := findLevel_price hfl
        exact findLevel_append_first hpre hlp
      · show (l.orders.map (setQty n.serial q)).map (fun m => m.serial)
          = l.orders.map (fun m => m.serial)
        rw [List.map_map]
        exact List.map_congr_left (fun m _ => setQty_serial _ _ _)
      · show ((l.total_quantity - n.order.quantity + q : ℕ) : ℤ) = _
        omega
    · intro r hr
      refine ⟨rfl, ?_⟩
      show findLevel r (update_quantity_in_place b.ask_levels n q) = _
      unfold update_quantity_in_place
      exact findLevel_updateLevelAt_other hr (fun l => l.update_quantity n q)
        (fun l => rfl) b.ask_levels
    · rw [if_neg (by simp [hsell])]
    · show lookupFind (b.order_lookup.map
          (fun (e : Nat × OrderNode) => (e.1, setQty n.serial q e.2))) id
          = some (setQty n.serial q n)
      rw [lookupFind_map_setQty, hfind]
      rfl
    · exact hother

/-- C4 witness: a concrete quantity-only amend on a one-order book. -/
theorem C4_witness :
    ((emptyBook.add_order ⟨1, true, 100, 10, 0⟩).amend_order 1 100 5 7).1 = true :=
  (C4_amend_quantity_only (emptyBook.add_order ⟨1, true, 100, 10, 0⟩)
    (wf_add emptyBook wf_empty _) 1 100 5 7 ⟨⟨1, true, 100, 10, 0⟩, 0⟩
    (by decide) (by norm_num [eps]) (by decide)).1

/-! ### Time priority within a level (claim C6) -/

theorem amend_order_def_qty_miss_bid (b : OrderBook) {id : Nat} {n : OrderNode} {p : ℚ}
    (q now : Nat) (hfind : lookupFind b.order_lookup id = some n)
    (hp : ¬ eps < ratAbs (n.order.price - p)) (hbuy : n.order.is_buy = true)
    (hfl : findLevel n.order.price b.bid_levels = none) :
    b.amend_order id p q now =
      (true, { b with cache_valid := false, total_amends := b.total_amends + 1 }) := by
  simp only [OrderBook.amend_order, hfind]
  rw [if_neg hp]
  simp [hbuy, hfl]

theorem amend_order_def_qty_miss_ask (b : OrderBook) {id : Nat} {n : OrderNode} {p : ℚ}
    (q now : Nat) (hfind : lookupFind b.order_lookup id = some n)
    (hp : ¬ eps < ratAbs (n.order.price - p)) (hsell : n.order.is_buy = false)
    (hfl : findLevel n.order.price b.ask_levels = none) :
    b.amend_order id p q now =
      (true, { b with cache_valid := false, total_amends := b.total_amends + 1 }) := by
  simp only [OrderBook.amend_order, hfind]
  rw [if_neg hp]
  simp [hsell, hfl]

theorem mem_bookNodes_of_level {b : OrderBook} {l : Level} {m : OrderNode}
    (hl : l ∈ b.bid_levels ++ b.ask_levels) (hm : m ∈ l.orders) : m ∈ bookNodes b := by
  rcases List.mem_append.mp hl with h | h
  · exact List.mem_append.mpr (Or.inl (mem_sideNodes.mpr ⟨l, h, hm⟩))
  · exact List.mem_append.mpr (Or.inr (mem_sideNodes.mpr ⟨l, h, hm⟩))

theorem rests_of_precedes {b : OrderBook} {s₁ s₂ : Nat} (h : precedes b s₁ s₂) :
    rests b s₁ ∧ rests b s₂ := by
  obtain ⟨l, hl, hsub⟩ := h
  have h₁ : s₁ ∈ l.orders.map (fun n => n.serial) := hsub.subset (by simp)
  have h₂ : s₂ ∈ l.orders.map (fun n => n.serial) := hsub.subset (by simp)
  obtain ⟨m₁, hm₁, hs₁⟩ := List.mem_map.mp h₁
  obtain ⟨m₂, hm₂, hs₂⟩ := List.mem_map.mp h₂
  exact ⟨⟨m₁, mem_bookNodes_of_level hl hm₁, hs₁⟩,
         ⟨m₂, mem_bookNodes_of_level hl hm₂, hs₂⟩⟩

theorem serial_lt_of_rests {b : OrderBook} {s : Nat} (hWF : BookWF b) (h : rests b s) :
    s < b.next_serial := by
  obtain ⟨m, hm, rfl⟩ := h
  exact hWF.serials_lt _ (List.mem_map.mpr ⟨m, hm, rfl⟩)

theorem rests_iff_mem_serials {b : OrderBook} {s : Nat} :
    rests b s ↔ s ∈ bookSerials b := by
  unfold rests bookSerials
  constructor
  · rintro ⟨m, hm, rfl⟩
    exact List.mem_map.mpr ⟨m, hm, rfl⟩
  · intro h
    obtain ⟨m, hm, hms⟩ := List.mem_map.mp h
    exact ⟨m, hm, hms⟩

theorem rests_add_inv {b : OrderBook} {o : Order} {s : Nat}
    (h : rests (b.add_order o) s) : rests b s ∨ s = b.next_serial := by
  obtain ⟨m, hm, rfl⟩ := h
  have hmem := (add_order_nodes_perm b o).mem_iff.mp hm
  rcases List.mem_cons.mp hmem with heq | hmem
  · right
    rw [heq]
  · left
    exact ⟨m, hmem, rfl⟩

theorem cancel_nodes_sublist (b : OrderBook) (id : Nat) :
    (bookNodes (b.cancel_order id).2).Sublist (bookNodes b) := by
  cases hfind : lookupFind b.order_lookup id with
  | none =>
    rw [cancel_order_def_none b hfind]
  | some n =>
    by_cases hb : n.order.is_buy
    · have e : bookNodes (b.cancel_order id).2
          = sideNodes (remove_from_side b.bid_levels n) ++ sideNodes b.ask_levels := by
        rw [cancel_order_def_found b hfind]
        simp [bookNodes, hb]
      rw [e]
      exact List.Sublist.append (remove_from_side_nodes_sublist _ _) (List.Sublist.refl _)
    · have e : bookNodes (b.cancel_order id).2
          = sideNodes b.bid_levels ++ sideNodes (remove_from_side b.ask_levels n) := by
        rw [cancel_order_def_found b hfind]
        simp [bookNodes, hb]
      rw [e]
      exact List.Sublist.append (List.Sublist.refl _) (remove_from_side_nodes_sublist _ _)

theorem rests_cancel_inv {b : OrderBook} {id : Nat} {s : Nat}
    (h : rests (b.cancel_order id).2 s) : rests b s := by
  obtain ⟨m, hm, rfl⟩ := h
  exact ⟨m, (cancel_nodes_sublist b id).subset hm, rfl⟩

theorem sideNodes_serials_update (side : List Level) (n : OrderNode) (q : Nat) :
    (sideNodes (update_quantity_in_place side n q)).map (fun m => m.serial)
      = (sideNodes side).map (fun m => m.serial) := by
  unfold update_quantity_in_place
  induction side with
  | nil => rfl
  | cons x xs ih =>
    by_cases hx : x.price = n.order.price
    · have e : updateLevelAt n.order.price (fun l => l.update_quantity n q) (x :: xs)
          = x.update_quantity n q :: xs := by
        simp [updateLevelAt, hx]
      rw [e]
      show ((x.update_quantity n q).orders ++ sideNodes xs).map _
        = (x.orders ++ sideNodes xs).map _
      simp only [Level.update_quantity, List.map_append, List.map_map]
      congr 1
      exact List.map_congr_left (fun m _ => setQty_serial _ _ _)
    · have e : updateLevelAt n.order.price (fun l => l.update_quantity n q) (x :: xs)
          = x :: updateLevelAt n.order.price (fun l => l.update_quantity n q) xs := by
        simp [updateLevelAt, hx]
      rw [e]
      show (x.orders ++ sideNodes (updateLevelAt _ _ xs)).map _
        = (x.orders ++ sideNodes xs).map _
      simp only [List.map_append]
      congr 1

theorem amendq_serials (b : OrderBook) {id : Nat} {n : OrderNode} {p : ℚ} (q now : Nat)
    (hfind : lookupFind b.order_lookup id = some n)
    (hp : ¬ eps < ratAbs (n.order.price - p)) :
    bookSerials (b.amend_order id p q now).2 = bookSerials b := by
  by_cases hb : n.order.is_buy
  · cases hfl : findLevel n.order.price b.bid_levels with
    | some l₀ =>
      rw [amend_order_def_qty_bid b q now hfind hp hb hfl]
      show (sideNodes (update_quantity_in_place b.bid_levels n q)
          ++ sideNodes b.ask_levels).map (fun m => m.serial)
        = (sideNodes b.bid_levels ++ sideNodes b.ask_levels).map (fun m => m.serial)
      rw [List.map_append, List.map_append, sideNodes_serials_update]
    | none =>
      rw [amend_order_def_qty_miss_bid b q now hfind hp hb hfl]
      rfl
  · have hb' : n.order.is_buy = false := by simpa using hb
    cases hfl : findLevel n.order.price b.ask_levels with
    | some l₀ =>
      rw [amend_order_def_qty_ask b q now hfind hp hb' hfl]
      show (sideNodes b.bid_levels
          ++ sideNodes (update_quantity_in_place b.ask_levels n q)).map (fun m => m.serial)
        = (sideNodes b.bid_levels ++ sideNodes b.ask_levels).map (fun m => m.serial)
      rw [List.map_append, List.map_append, sideNodes_serials_update]
    | none =>
      rw [amend_order_def_qty_miss_ask b q now hfind hp hb' hfl]
      rfl

theorem next_serial_step (b : OrderBook) (op : Op) :
    b.next_serial ≤ (step b op).next_serial := by
  cases op with
  | add o =>
    have e : (b.add_order o).next_serial = b.next_serial + 1 := by rw [add_order_def]
    show b.next_serial ≤ (b.add_order o).next_serial
    omega
  | cancel id =>
    show b.next_serial ≤ (b.cancel_order id).2.next_serial
    cases hfind : lookupFind b.order_lookup id with
    | none => rw [cancel_order_def_none b hfind]
    | some n => rw [cancel_order_def_found b hfind]
  | amend id p q now =>
    show b.next_serial ≤ (b.amend_order id p q now).2.next_serial
    cases hfind : lookupFind b.order_lookup id with
    | none => rw [amend_order_def_none b p q now hfind]
    | some n =>
      by_cases hp : eps < ratAbs (n.order.price - p)
      · rw [amend_order_def_price b q now hfind hp]
        have e : (({ b with cache_valid := false }.cancel_order id).2).next_serial
            = b.next_serial := by
          rw [cancel_order_def_found { b with cache_valid := false }
            (n := n) hfind]
        show b.next_serial
          ≤ (({ b with cache_valid := false }.cancel_order id).2.add_order
              { n.order with price := p, quantity := q, timestamp_ns := now }).next_serial
        have e2 : (({ b with cache_valid := false }.cancel_order id).2.add_order
            { n.order with price := p, quantity := q, timestamp_ns := now }).next_serial
            = (({ b with cache_valid := false }.cancel_order id).2).next_serial + 1 := by
          rw [add_order_def]
        rw [e2, e]
        omega
      · by_cases hb : n.order.is_buy
        · cases hfl : findLevel n.order.price b.bid_levels with
          | some l₀ => rw [amend_order_def_qty_bid b q now hfind hp hb hfl]
          | none => rw [amend_order_def_qty_miss_bid b q now hfind hp hb hfl]
        · have hb' : n.order.is_buy = false := by simpa using hb
          cases hfl : findLevel n.order.price b.ask_levels with
          | some l₀ => rw [amend_order_def_qty_ask b q now hfind hp hb' hfl]
          | none => rw [amend_order_def_qty_miss_ask b q now hfind hp hb' hfl]
  | snapshot d => exact le_refl _
  | best =>
    show b.next_serial ≤ (b.get_best_prices).2.next_serial
    unfold OrderBook.get_best_prices
    by_cases hv : b.cache_valid
    · rw [if_pos hv]
    · rw [if_neg hv]

theorem rests_step_inv (b : OrderBook) (op : Op) {s : Nat}
    (h : rests (step b op) s) : rests b s ∨ b.next_serial ≤ s := by
  cases op with
  | add o =>
    rcases rests_add_inv h with h' | h'
    · exact Or.inl h'
    · exact Or.inr (le_of_eq h'.symm)
  | cancel id => exact Or.inl (rests_cancel_inv h)
  | amend id p q now =>
    show rests b s ∨ _
    cases hfind : lookupFind b.order_lookup id with
    | none =>
      rw [show step b (.amend id p q now) = (b.amend_order id p q now).2 from rfl,
        amend_order_def_none b p q now hfind] at h
      exact Or.inl h
    | some n =>
      by_cases hp : eps < ratAbs (n.order.price - p)
      · have h' : rests (({ b with cache_valid := false }.cancel_order id).2.add_order
            { n.order with price := p, quantity := q, timestamp_ns := now }) s := by
          have e := amend_order_def_price b q now hfind hp
          rw [show step b (.amend id p q now) = (b.amend_order id p q now).2 from rfl,
            e] at h
          exact h
        rcases rests_add_inv h' with h'' | h''
        · exact Or.inl (show rests b s from
            rests_cancel_inv (b := { b with cache_valid := false }) h'')
        · refine Or.inr ?_
          have e : (({ b with cache_valid := false }.cancel_order id).2).next_serial
              = b.next_serial := by
            rw [cancel_order_def_found { b with cache_valid := false }
              (n := n) hfind]
          rw [h'', e]
      · left
        have hs := (rests_iff_mem_serials).mp h
        rw [show step b (.amend id p q now) = (b.amend_order id p q now).2 from rfl] at hs
        rw [amendq_serials b q now hfind hp] at hs
        exact rests_iff_mem_serials.mpr hs
  | snapshot d => exact Or.inl h
  | best =>
    left
    show rests b s
    have h' : rests (b.get_best_prices).2 s := h
    unfold OrderBook.get_best_prices at h'
    by_cases hv : b.cache_valid
    · rw [if_pos hv] at h'
      exact h'
    · rw [if_neg hv] at h'
      exact h'

theorem not_rests_run {b : OrderBook} {s : Nat} (ops : List Op)
    (hs : s < b.next_serial) (h : ¬ rests b s) : ¬ rests (run b ops) s := by
  induction ops generalizing b with
  | nil => exact h
  | cons op ops ih =>
    show ¬ rests (run (step b op) ops) s
    refine ih (lt_of_lt_of_le hs (next_serial_step b op)) ?_
    intro hr
    rcases rests_step_inv b op hr with h' | h'
    · exact h h'
    · omega

theorem map_serial_eraseP (ns : List OrderNode) (s : Nat) :
    (ns.eraseP (fun m => decide (m.serial = s))).map (fun m => m.serial)
      = (ns.map (fun m => m.serial)).eraseP (fun x => decide (x = s)) := by
  induction ns with
  | nil => rfl
  | cons a t ih =>
    by_cases ha : a.serial = s
    · simp [List.eraseP_cons, ha]
    · simp [List.eraseP_cons, ha, ih]

theorem mem_eraseP_of_pred_false {α : Type} {p : α → Bool} {a : α} {l : List α}
    (ha : a ∈ l) (hp : p a = false) : a ∈ l.eraseP p := by
  refine List.singleton_sublist.mp (sublist_eraseP (List.singleton_sublist.mpr ha) ?_)
  intro y hy
  rw [List.mem_singleton.mp hy]
  exact hp

theorem precedes_add_to_side (c : ℚ → ℚ → Bool) {side : List Level} {l : Level}
    {s₁ s₂ : Nat} (n : OrderNode) (hl : l ∈ side)
    (hsub : [s₁, s₂].Sublist (l.orders.map (fun m => m.serial))) :
    ∃ l' ∈ add_to_side c side n, [s₁, s₂].Sublist (l'.orders.map (fun m => m.serial)) := by
  unfold add_to_side
  cases hfind : findLevel n.order.price side with
  | some l₀ =>
    obtain ⟨pre, post, hs, hpre, hupd⟩ := updateLevelAt_split hfind
    rw [hupd _]
    rw [hs] at hl
    rcases List.mem_append.mp hl with h | h
    · exact ⟨l, List.mem_append.mpr (Or.inl h), hsub⟩
    · rcases List.mem_cons.mp h with rfl | h
      · refine ⟨l.add_order n, List.mem_append.mpr (Or.inr (List.mem_cons_self _ _)), ?_⟩
        show [s₁, s₂].Sublist ((l.orders ++ [n]).map (fun m => m.serial))
        rw [List.map_append]
        exact hsub.trans (List.sublist_append_left _ _)
      · exact ⟨l, List.mem_append.mpr (Or.inr (List.mem_cons_of_mem _ h)), hsub⟩
  | none =>
    exact ⟨l, mem_insertSorted.mpr (Or.inr hl), hsub⟩

theorem precedes_remove_from_side {side : List Level} {l : Level} {n : OrderNode}
    {s₁ s₂ : Nat} (hl : l ∈ side)
    (hsub : [s₁, s₂].Sublist (l.orders.map (fun m => m.serial)))
    (h₁ : s₁ ≠ n.serial) (h₂ : s₂ ≠ n.serial) :
    ∃ l' ∈ remove_from_side side n,
      [s₁, s₂].Sublist (l'.orders.map (fun m => m.serial)) := by
  cases hfind : findLevel n.order.price side with
  | none =>
    rw [remove_from_side_id (findLevel_none hfind)]
    exact ⟨l, hl, hsub⟩
  | some l₀ =>
    obtain ⟨pre, post, hs, hpre, hrem⟩ := remove_from_side_split hfind
    rw [hrem]
    rw [hs] at hl
    have herase : [s₁, s₂].Sublist
        (((l₀.remove_order n).orders).map (fun m => m.serial)) → True := fun _ => trivial
    rcases List.mem_append.mp hl with h | h
    · exact ⟨l, List.mem_append.mpr (Or.inl h), hsub⟩
    · rcases List.mem_cons.mp h with rfl | h
      · -- the modified level carries the pair, minus the removed serial
        have hsub' : [s₁, s₂].Sublist ((l.remove_order n).orders.map (fun m => m.serial)) := by
          show [s₁, s₂].Sublist
            ((l.orders.eraseP (fun m => decide (m.serial = n.serial))).map
              (fun m => m.serial))
          rw [map_serial_eraseP]
          refine sublist_eraseP hsub ?_
          intro y hy
          rcases List.mem_cons.mp hy with rfl | hy
          · simp [h₁]
          · rcases List.mem_cons.mp hy with rfl | hy
            · simp [h₂]
            · simp at hy
        by_cases hemp : (l.remove_order n).is_empty = true
        · exfalso
          have hnil : (l.remove_order n).orders = [] := by
            have := hemp
            unfold Level.is_empty at this
            exact List.isEmpty_iff.mp this
          rw [hnil] at hsub'
          simp at hsub'
        · rw [if_neg hemp]
          exact ⟨l.remove_order n, List.mem_append.mpr (Or.inr (List.mem_cons_self _ _)),
            hsub'⟩
      · by_cases hemp : (l₀.remove_order n).is_empty = true
        · rw [if_pos hemp]
          exact ⟨l, List.mem_append.mpr (Or.inr h), hsub⟩
        · rw [if_neg hemp]
          exact ⟨l, List.mem_append.mpr (Or.inr (List.mem_cons_of_mem _ h)), hsub⟩

theorem precedes_update_side {side : List Level} {l : Level} {n : OrderNode} {q : Nat}
    {s₁ s₂ : Nat} (hl : l ∈ side)
    (hsub : [s₁, s₂].Sublist (l.orders.map (fun m => m.serial))) :
    ∃ l' ∈ update_quantity_in_place side n q,
      [s₁, s₂].Sublist (l'.orders.map (fun m => m.serial)) := by
  unfold update_quantity_in_place
  cases hfind : findLevel n.order.price side with
  | none =>
    rw [updateLevelAt_id (findLevel_none hfind) _]
    exact ⟨l, hl, hsub⟩
  | some l₀ =>
    obtain ⟨pre, post, hs, hpre, hupd⟩ := updateLevelAt_split hfind
    rw [hupd _]
    rw [hs] at hl
    rcases List.mem_append.mp hl with h | h
    · exact ⟨l, List.mem_append.mpr (Or.inl h), hsub⟩
    · rcases List.mem_cons.mp h with rfl | h
      · refine ⟨l.update_quantity n q,
          List.mem_append.mpr (Or.inr (List.mem_cons_self _ _)), ?_⟩
        show [s₁, s₂].Sublist ((l.orders.map (setQty n.serial q)).map (fun m => m.serial))
        rw [List.map_map]
        have e : l.orders.map ((fun m : OrderNode => m.serial) ∘ setQty n.serial q)
            = l.orders.map (fun m => m.serial) :=
          List.map_congr_left (fun m _ => setQty_serial _ _ _)
        rw [e]
        exact hsub
      · exact ⟨l, List.mem_append.mpr (Or.inr (List.mem_cons_of_mem _ h)), hsub⟩

theorem cancel_removes (b : OrderBook) (hWF : BookWF b) {id : Nat} {n : OrderNode}
    (hfind : lookupFind b.order_lookup id = some n) :
    ¬ rests (b.cancel_order id).2 n.serial := by
  obtain ⟨A, B, hAB, hAB'⟩ := cancel_nodes_split b hWF hfind
  have hnd : ((A ++ n :: B).map (fun m => m.serial)).Nodup := by
    have h0 := hWF.serials_nodup
    unfold bookSerials at h0
    rw [hAB] at h0
    exact h0
  obtain ⟨hndA, hndB⟩ := nodup_split_middle hnd
  rintro ⟨m, hm, hms⟩
  have hm' : m ∈ A ++ B := hAB' ▸ hm
  rcases List.mem_append.mp hm' with h | h
  · exact hndA m h hms
  · exact hndB m h hms

theorem precedes_add (b : OrderBook) {s₁ s₂ : Nat} (h : precedes b s₁ s₂) (o : Order) :
    precedes (b.add_order o) s₁ s₂ := by
  obtain ⟨l, hl, hsub⟩ := h
  by_cases hb : o.is_buy
  · have ebid : (b.add_order o).bid_levels
        = add_to_side bidCmp b.bid_levels ⟨o, b.next_serial⟩ := by
      rw [add_order_def]; simp [hb]
    have easc : (b.add_order o).ask_levels = b.ask_levels := by
      rw [add_order_def]; simp [hb]
    rcases List.mem_append.mp hl with hlb | hla
    · obtain ⟨l', hl', hsub'⟩ := precedes_add_to_side bidCmp ⟨o, b.next_serial⟩ hlb hsub
      exact ⟨l', List.mem_append.mpr (Or.inl (by rw [ebid]; exact hl')), hsub'⟩
    · exact ⟨l, List.mem_append.mpr (Or.inr (by rw [easc]; exact hla)), hsub⟩
  · have ebid : (b.add_order o).bid_levels = b.bid_levels := by
      rw [add_order_def]; simp [hb]
    have easc : (b.add_order o).ask_levels
        = add_to_side askCmp b.ask_levels ⟨o, b.next_serial⟩ := by
      rw [add_order_def]; simp [hb]
    rcases List.mem_append.mp hl with hlb | hla
    · exact ⟨l, List.mem_append.mpr (Or.inl (by rw [ebid]; exact hlb)), hsub⟩
    · obtain ⟨l', hl', hsub'⟩ := precedes_add_to_side askCmp ⟨o, b.next_serial⟩ hla hsub
      exact ⟨l', List.mem_append.mpr (Or.inr (by rw [easc]; exact hl')), hsub'⟩

theorem precedes_cancel (b : OrderBook) (hWF : BookWF b) (id : Nat) {s₁ s₂ : Nat}
    (h : precedes b s₁ s₂)
    (h₁ : rests (b.cancel_order id).2 s₁) (h₂ : rests (b.cancel_order id).2 s₂) :
    precedes (b.cancel_order id).2 s₁ s₂ := by
  cases hfind : lookupFind b.order_lookup id with
  | none =>
    rw [cancel_order_def_none b hfind]
    exact h
  | some n =>
    have hs₁ : s₁ ≠ n.serial := by
      intro heq
      rw [heq] at h₁
      exact cancel_removes b hWF hfind h₁
    have hs₂ : s₂ ≠ n.serial := by
      intro heq
      rw [heq] at h₂
      exact cancel_removes b hWF hfind h₂
    obtain ⟨l, hl, hsub⟩ := h
    by_cases hb : n.order.is_buy
    · have ebid : (b.cancel_order id).2.bid_levels = remove_from_side b.bid_levels n := by
        rw [cancel_order_def_found b hfind]; simp [hb]
      have easc : (b.cancel_order id).2.ask_levels = b.ask_levels := by
        rw [cancel_order_def_found b hfind]; simp [hb]
      rcases List.mem_append.mp hl with hlb | hla
      · obtain ⟨l', hl', hsub'⟩ := precedes_remove_from_side hlb hsub hs₁ hs₂
        exact ⟨l', List.mem_append.mpr (Or.inl (by rw [ebid]; exact hl')), hsub'⟩
      · exact ⟨l, List.mem_append.mpr (Or.inr (by rw [easc]; exact hla)), hsub⟩
    · have ebid : (b.cancel_order id).2.bid_levels = b.bid_levels := by
        rw [cancel_order_def_found b hfind]; simp [hb]
      have easc : (b.cancel_order id).2.ask_levels = remove_from_side b.ask_levels n := by
        rw [cancel_order_def_found b hfind]; simp [hb]
      rcases List.mem_append.mp hl with hlb | hla
      · exact ⟨l, List.mem_append.mpr (Or.inl (by rw [ebid]; exact hlb)), hsub⟩
      · obtain ⟨l', hl', hsub'⟩ := precedes_remove_from_side hla hsub hs₁ hs₂
        exact ⟨l', List.mem_append.mpr (Or.inr (by rw [easc]; exact hl')), hsub'⟩

theorem precedes_amend (b : OrderBook) (hWF : BookWF b) (id : Nat) (p : ℚ) (q now : Nat)
    {s₁ s₂ : Nat} (h : precedes b s₁ s₂)
    (h₁ : rests (b.amend_order id p q now).2 s₁)
    (h₂ : rests (b.amend_order id p q now).2 s₂) :
    precedes (b.amend_order id p q now).2 s₁ s₂ := by
  cases hfind : lookupFind b.order_lookup id with
  | none =>
    rw [amend_order_def_none b p q now hfind]
    exact h
  | some n =>
    by_cases hp : eps < ratAbs (n.order.price - p)
    · have hs₁lt : s₁ < b.next_serial := serial_lt_of_rests hWF (rests_of_precedes h).1
      have hs₂lt : s₂ < b.next_serial := serial_lt_of_rests hWF (rests_of_precedes h).2
      rw [amend_order_def_price b q now hfind hp] at h₁ h₂ ⊢
      have hWF₁ : BookWF { b with cache_valid := false } := wf_cache_false b hWF
      have hpre₁ : precedes { b with cache_valid := false } s₁ s₂ := h
      have hr₁ : rests (({ b with cache_valid := false }.cancel_order id).2.add_order
          { n.order with price := p, quantity := q, timestamp_ns := now }) s₁ := h₁
      have hr₂ : rests (({ b with cache_valid := false }.cancel_order id).2.add_order
          { n.order with price := p, quantity := q, timestamp_ns := now }) s₂ := h₂
      have hnext : (({ b with cache_valid := false }.cancel_order id).2).next_serial
          = b.next_serial := by
        rw [cancel_order_def_found { b with cache_valid := false } (n := n) hfind]
      have hc₁ : rests ({ b with cache_valid := false }.cancel_order id).2 s₁ := by
        rcases rests_add_inv hr₁ with h' | h'
        · exact h'
        · rw [hnext] at h'
          omega
      have hc₂ : rests ({ b with cache_valid := false }.cancel_order id).2 s₂ := by
        rcases rests_add_inv hr₂ with h' | h'
        · exact h'
        · rw [hnext] at h'
          omega
      have hpc := precedes_cancel { b with cache_valid := false } hWF₁ id hpre₁ hc₁ hc₂
      exact precedes_add _ hpc _
    · by_cases hb : n.order.is_buy
      · cases hfl : findLevel n.order.price b.bid_levels with
        | some l₀ =>
          rw [amend_order_def_qty_bid b q now hfind hp hb hfl]
          obtain ⟨l, hl, hsub⟩ := h
          rcases List.mem_append.mp hl with hlb | hla
          · obtain ⟨l', hl', hsub'⟩ := precedes_update_side (n := n) (q := q) hlb hsub
            exact ⟨l', List.mem_append.mpr (Or.inl hl'), hsub'⟩
          · exact ⟨l, List.mem_append.mpr (Or.inr hla), hsub⟩
        | none =>
          rw [amend_order_def_qty_miss_bid b q now hfind hp hb hfl]
          exact h
      · have hb' : n.order.is_buy = false := by simpa using hb
        cases hfl : findLevel n.order.price b.ask_levels with
        | some l₀ =>
          rw [amend_order_def_qty_ask b q now hfind hp hb' hfl]
          obtain ⟨l, hl, hsub⟩ := h
          rcases List.mem_append.mp hl with hlb | hla
          · exact ⟨l, List.mem_append.mpr (Or.inl hlb), hsub⟩
          · obtain ⟨l', hl', hsub'⟩ := precedes_update_side (n := n) (q := q) hla hsub
            exact ⟨l', List.mem_append.mpr (Or.inr hl'), hsub'⟩
        | none =>
          rw [amend_order_def_qty_miss_ask b q now hfind hp hb' hfl]
          exact h

theorem precedes_step (b : OrderBook) (hWF : BookWF b) (op : Op) {s₁ s₂ : Nat}
    (h : precedes b s₁ s₂) (h₁ : rests (step b op) s₁) (h₂ : rests (step b op) s₂) :
    precedes (step b op) s₁ s₂ := by
  cases op with
  | add o => exact precedes_add b h o
  | cancel id => exact precedes_cancel b hWF id h h₁ h₂
  | amend id p q now => exact precedes_amend b hWF id p q now h h₁ h₂
  | snapshot d => exact h
  | best =>
    show precedes (b.get_best_prices).2 s₁ s₂
    unfold OrderBook.get_best_prices
    by_cases hv : b.cache_valid
    · rw [if_pos hv]
      exact h
    · rw [if_neg hv]
      exact h

theorem precedes_run (b : OrderBook) (hWF : BookWF b) (ops : List Op) {s₁ s₂ : Nat}
    (h : precedes b s₁ s₂) (h₁ : rests (run b ops) s₁) (h₂ : rests (run b ops) s₂) :
    precedes (run b ops) s₁ s₂ := by
  induction ops generalizing b with
  | nil => exact h
  | cons op ops ih =>
    show precedes (run (step b op) ops) s₁ s₂
    by_cases hr₁ : rests (step b op) s₁
    · by_cases hr₂ : rests (step b op) s₂
      · exact ih (step b op) (wf_step b hWF op) (precedes_step b hWF op h hr₁ hr₂) h₁ h₂
      · exfalso
        have hlt : s₂ < (step b op).next_serial :=
          lt_of_lt_of_le (serial_lt_of_rests hWF (rests_of_precedes h).2)
            (next_serial_step b op)
        exact not_rests_run ops hlt hr₂ h₂
    · exfalso
      have hlt : s₁ < (step b op).next_serial :=
        lt_of_lt_of_le (serial_lt_of_rests hWF (rests_of_precedes h).1)
          (next_serial_step b op)
      exact not_rests_run ops hlt hr₁ h₁

theorem precedes_add_tail (b : OrderBook) (hWF : BookWF b) {m : OrderNode} (o : Order)
    (hm : m ∈ bookNodes b) (hp : m.order.price = o.price)
    (hs : m.order.is_buy = o.is_buy) :
    precedes (b.add_order o) m.serial b.next_serial := by
  have hm' : m ∈ sideNodes b.bid_levels ++ sideNodes b.ask_levels := hm
  rcases List.mem_append.mp hm' with hside | hside
  · have hbuy := hWF.bid_buy m hside
    have hob : o.is_buy = true := by rw [← hs]; exact hbuy
    obtain ⟨l, hfl, hml⟩ := found_bid_level b hWF hside
    have ebid : (b.add_order o).bid_levels
        = add_to_side bidCmp b.bid_levels ⟨o, b.next_serial⟩ := by
      rw [add_order_def]; simp [hob]
    have hfl' : findLevel (⟨o, b.next_serial⟩ : OrderNode).order.price b.bid_levels
        = some l := by
      show findLevel o.price b.bid_levels = some l
      rw [← hp]
      exact hfl
    obtain ⟨pre, post, hsides, hpre, hupd⟩ := updateLevelAt_split hfl'
    refine ⟨l.add_order ⟨o, b.next_serial⟩, ?_, ?_⟩
    · refine List.mem_append.mpr (Or.inl ?_)
      rw [ebid]
      unfold add_to_side
      rw [hfl', hupd _]
      exact List.mem_append.mpr (Or.inr (List.mem_cons_self _ _))
    · show [m.serial, b.next_serial].Sublist
        ((l.orders ++ ([⟨o, b.next_serial⟩] : List OrderNode)).map (fun x => x.serial))
      rw [List.map_append]
      have e1 : [m.serial].Sublist (l.orders.map (fun x => x.serial)) :=
        List.singleton_sublist.mpr (List.mem_map.mpr ⟨m, hml, rfl⟩)
      have e2 : [b.next_serial].Sublist
          (([⟨o, b.next_serial⟩] : List OrderNode).map (fun x => x.serial)) := by simp
      exact e1.append e2
  · have hsell := hWF.ask_sell m hside
    have hob : o.is_buy = false := by rw [← hs]; exact hsell
    obtain ⟨l, hfl, hml⟩ := found_ask_level b hWF hside
    have easc : (b.add_order o).ask_levels
        = add_to_side askCmp b.ask_levels ⟨o, b.next_serial⟩ := by
      rw [add_order_def]; simp [hob]
    have hfl' : findLevel (⟨o, b.next_serial⟩ : OrderNode).order.price b.ask_levels
        = some l := by
      show findLevel o.price b.ask_levels = some l
      rw [← hp]
      exact hfl
    obtain ⟨pre, post, hsides, hpre, hupd⟩ := updateLevelAt_split hfl'
    refine ⟨l.add_order ⟨o, b.next_serial⟩, ?_, ?_⟩
    · refine List.mem_append.mpr (Or.inr ?_)
      rw [easc]
      unfold add_to_side
      rw [hfl', hupd _]
      exact List.mem_append.mpr (Or.inr (List.mem_cons_self _ _))
    · show [m.serial, b.next_serial].Sublist
        ((l.orders ++ ([⟨o, b.next_serial⟩] : List OrderNode)).map (fun x => x.serial))
      rw [List.map_append]
      have e1 : [m.serial].Sublist (l.orders.map (fun x => x.serial)) :=
        List.singleton_sublist.mpr (List.mem_map.mpr ⟨m, hml, rfl⟩)
      have e2 : [b.next_serial].Sublist
          (([⟨o, b.next_serial⟩] : List OrderNode).map (fun x => x.serial)) := by simp
      exact e1.append e2

/-- C6: an order `m` resting at the price and side at which a new order
`o` is added keeps FIFO priority over it: after any further sequence of
public operations under which both still rest in the book, `m`'s node
precedes the new node in its Level's FIFO — time priority depends only
on insertion order, never on `timestamp_ns` values (which are entirely
unconstrained here). -/
theorem C6_time_priority (b : OrderBook) (hWF : BookWF b) (m : OrderNode) (o : Order)
    (ops : List Op) (hm : m ∈ bookNodes b) (hp : m.order.price = o.price)
    (hs : m.order.is_buy = o.is_buy)
    (h₁ : rests (run (b.add_order o) ops) m.serial)
    (h₂ : rests (run (b.add_order o) ops) b.next_serial) :
    precedes (run (b.add_order o) ops) m.serial b.next_serial :=
  precedes_run (b.add_order o) (wf_add b hWF o) ops
    (precedes_add_tail b hWF o hm hp hs) h₁ h₂

/-- C6 witness: two same-price buy orders, the earlier (serial 0, even
with a later timestamp) preceding the later (serial 1) after a further
unrelated add. -/
theorem C6_witness :
    precedes
      (run ((emptyBook.add_order ⟨1, true, 100, 10, 9⟩).add_order ⟨2, true, 100, 5, 3⟩)
        [Op.add ⟨3, false, 101, 7, 4⟩]) 0 1 :=
  C6_time_priority (emptyBook.add_order ⟨1, true, 100, 10, 9⟩)
    (wf_add emptyBook wf_empty _) ⟨⟨1, true, 100, 10, 9⟩, 0⟩ ⟨2, true, 100, 5, 3⟩
    [Op.add ⟨3, false, 101, 7, 4⟩] (by decide) (by decide) (by decide)
    (by decide) (by decide)

end LOB
